import Mathlib

set_option maxRecDepth 100000

/-!
Verification of the knowledge-graph engine in `ipproject.c`.

The C program is shallowly embedded: C strings become `List Char`
(`Str`), the global hash table `gHash` becomes an explicit `GState`
holding an arena of entities (indices play the role of pointers) and a
list of hash buckets, and every function of the graph/query/IO core is
translated to a pure Lean function that mirrors the C control flow,
including the `NAME_LEN`/`REL_LEN` (128-byte) truncations performed by
`strncpy` and the suggestion cap `SUGGEST_MAX`.  Interactive reads
(`read_line` + `atoi` inside the disambiguation prompt) become explicit
`Int` arguments, and file contents become explicit `List Str` of lines
with the trailing newline already stripped (as `fgets` +
`strcspn "\r\n"` does).
-/

namespace KG

/-- C strings are modelled as lists of characters (one `Char` per byte,
the terminating NUL is implicit). -/
abbrev Str := List Char

/-- The `isspace` predicate of `ctype.h` for the default locale. -/
def isSpace (c : Char) : Bool :=
  c = ' ' || c = '\t' || c = '\n' || c = '\x0b' || c = '\x0c' || c = '\r'

/-- ASCII `tolower`, as applied bytewise by the C helpers. -/
def toLowerCh (c : Char) : Char :=
  if 'A' ≤ c ∧ c ≤ 'Z' then Char.ofNat (c.toNat + 32) else c

/-- Embedding of `trim`: drop leading and trailing whitespace. -/
def trim (s : Str) : Str :=
  ((s.dropWhile isSpace).reverse.dropWhile isSpace).reverse

/-- Loop of `squeeze_spaces`; the flag is the C variable `in_space`. -/
def squeezeAux : Bool → Str → Str
  | _, [] => []
  | inSp, c :: rest =>
    if isSpace c then
      if inSp then squeezeAux true rest else ' ' :: squeezeAux true rest
    else c :: squeezeAux false rest

/-- Embedding of `squeeze_spaces`: collapse each whitespace run to one `' '`. -/
def squeeze_spaces (s : Str) : Str := squeezeAux false s

/-- The `trim` + `squeeze_spaces` combination the program applies to user
input and to parsed segments (always in this order). -/
def normalize (s : Str) : Str := squeeze_spaces (trim s)

/-- Embedding of `ci_cmp`: case-insensitive `strcmp`.  The final
comparison of the C code subtracts the raw bytes once one string ends;
only the zero/non-zero outcome is ever used by the program. -/
def ci_cmp : Str → Str → Int
  | [], [] => 0
  | x :: _, [] => (x.toNat : Int)
  | [], y :: _ => -((y.toNat : Int))
  | x :: xs, y :: ys =>
    if (toLowerCh x).toNat ≠ (toLowerCh y).toNat then
      ((toLowerCh x).toNat : Int) - ((toLowerCh y).toNat : Int)
    else ci_cmp xs ys

/-- Bytewise string prefix test (`strncmp(hay, needle, strlen(needle)) == 0`
with the needle length as bound). -/
def starts_with : Str → Str → Bool
  | [], _ => true
  | _ :: _, [] => false
  | a :: as, b :: bs => a == b && starts_with as bs

/-- Embedding of `strstr hay needle ≠ NULL`. -/
def containsSub (needle : Str) : Str → Bool
  | [] => starts_with needle []
  | c :: t => starts_with needle (c :: t) || containsSub needle t

/-- Buffer size `NAME_LEN` of the C program. -/
def NAME_LEN : Nat := 128

/-- Buffer size `REL_LEN` of the C program. -/
def REL_LEN : Nat := 128

/-- Bucket count `HASH_SIZE` of the C program. -/
def HASH_SIZE : Nat := 101

/-- Suggestion cap `SUGGEST_MAX` of the C program. -/
def SUGGEST_MAX : Nat := 16

/-- Line buffer size `LINE_BUF` of the C program. -/
def LINE_BUF : Nat := 512

/-- Embedding of `ci_contains`, including the `to_lower_copy` buffer
truncations (`H[NAME_LEN*2]`, `N[NAME_LEN]`). -/
def ci_contains (hay needle : Str) : Bool :=
  containsSub ((needle.take (NAME_LEN - 1)).map toLowerCh)
    ((hay.take (2 * NAME_LEN - 1)).map toLowerCh)

/-- The djb2 hash of `hash_index`, on an `unsigned long` (64 bits),
reduced modulo `HASH_SIZE`. -/
def hash_index (s : Str) : Nat :=
  (s.foldl (fun h c => (h * 33 + c.toNat) % 2 ^ 64) 5381) % HASH_SIZE

/-- A labeled directed edge (C struct `Relation`); the target entity is
referenced by its arena index, playing the role of the C pointer. -/
structure Rel where
  rel : Str
  target : Nat
deriving DecidableEq, Repr

/-- An entity record (C struct `Entity`, persistent fields only; the
transient BFS fields `visited`/`prev` are modelled as the separate
`Marks` side state, see `reset_bfs_marks`). -/
structure EntityRec where
  name : Str
  relations : List Rel
deriving DecidableEq, Repr

instance : Inhabited EntityRec := ⟨⟨[], []⟩⟩

/-- The whole graph store: the arena of all allocated entities (an
entity's identity is its arena index; `create_entity` appends) and the
`gHash` bucket chains (`HASH_SIZE` lists of arena indices, most recently
inserted first, exactly as the C chains are threaded). -/
structure GState where
  arena : List EntityRec
  buckets : List (List Nat)
deriving DecidableEq, Repr

/-- The empty graph (`gHash` all NULL, nothing allocated). -/
def emptyState : GState := ⟨[], List.replicate HASH_SIZE []⟩

/-- Name of the entity at an arena index. -/
def nameOf (s : GState) (id : Nat) : Str := (s.arena.getD id default).name

/-- Outgoing relation records of the entity at an arena index
(list head = most recently added, as in the C adjacency list). -/
def relsOf (s : GState) (id : Nat) : List Rel := (s.arena.getD id default).relations

/-- All live entity ids in hash-table iteration order: bucket 0 first,
each chain front to back.  Every full-table scan of the C program
(fuzzy search, save, DOT export, reset) walks this order. -/
def iterIds (s : GState) : List Nat := s.buckets.flatten

/-- Embedding of `find_entity_exact`: scan the bucket of the name's hash
for an exact (`strcmp`) match. -/
def find_entity_exact (s : GState) (name : Str) : Option Nat :=
  (s.buckets.getD (hash_index name) []).find? (fun id => nameOf s id == name)

/-- Embedding of `create_entity`: allocate a record whose name is the
`strncpy` truncation of the argument to `NAME_LEN - 1` bytes, and push
it on the front of its hash chain.  Returns the new id and state. -/
def create_entity (s : GState) (name : Str) : Nat × GState :=
  let nm := name.take (NAME_LEN - 1)
  let id := s.arena.length
  let idx := hash_index nm
  (id, ⟨s.arena ++ [⟨nm, []⟩], s.buckets.set idx (id :: s.buckets.getD idx [])⟩)

/-- Embedding of `get_or_create_entity`. -/
def get_or_create_entity (s : GState) (name : Str) : Nat × GState :=
  match find_entity_exact s name with
  | some id => (id, s)
  | none => create_entity s name

/-- Embedding of `add_relationship`: get-or-create both endpoints, then
prepend a relation record (label truncated to `REL_LEN - 1` bytes by
`strncpy`) to the source's adjacency list. -/
def add_relationship (s : GState) (src rel tgt : Str) : GState :=
  let rS := get_or_create_entity s src
  let rT := get_or_create_entity rS.2 tgt
  let S := rS.1
  let T := rT.1
  let s2 := rT.2
  let old := s2.arena.getD S default
  ⟨s2.arena.set S ⟨old.name, ⟨rel.take (REL_LEN - 1), T⟩ :: old.relations⟩, s2.buckets⟩

/-- Embedding of `fuzzy_pick_from_suggestions`.  The `choice` argument
is the `atoi` of the line the C code reads from the prompt; it is only
consulted when at least two candidates exist. -/
def fuzzy_pick_from_suggestions (sugg : List Nat) (choice : Int) : Option Nat :=
  match sugg with
  | [] => none
  | [x] => some x
  | _ =>
    if 1 ≤ choice ∧ choice ≤ (sugg.length : Int) then
      some (sugg.getD (choice.toNat - 1) 0)
    else none

/-- Candidates of pass 2 of `search_entity_smart` (case-insensitive
prefix matches in table iteration order, before the cap is applied).
`to_lower_copy` truncates the entity name at `NAME_LEN - 1` bytes. -/
def tier2_candidates (s : GState) (key : Str) : List Nat :=
  (iterIds s).filter
    (fun id => starts_with (key.map toLowerCh) ((nameOf s id).take (NAME_LEN - 1) |>.map toLowerCh))

/-- Candidates of pass 3 of `search_entity_smart` (case-insensitive
substring matches in table iteration order, before the cap). -/
def tier3_candidates (s : GState) (key : Str) : List Nat :=
  (iterIds s).filter (fun id => ci_contains (nameOf s id) key)

/-- Embedding of `search_entity_smart`: truncate the raw input to the
`key` buffer, normalize, and run the exact / prefix / substring tiers,
capping suggestion collection at `SUGGEST_MAX`. -/
def search_entity_smart (s : GState) (input : Str) (choice : Int) : Option Nat :=
  let key := normalize (input.take (NAME_LEN - 1))
  if key = [] then none
  else
    match (iterIds s).find? (fun id => ci_cmp (nameOf s id) key == 0) with
    | some e => some e
    | none =>
      let pre := (tier2_candidates s key).take SUGGEST_MAX
      let sugg := if pre = [] then (tier3_candidates s key).take SUGGEST_MAX else pre
      fuzzy_pick_from_suggestions sugg choice

/-- The transient BFS bookkeeping of the C program: the set of entities
whose `visited` flag is 1 (as a list of arena ids) and the `prev`
pointers (arena id to arena id). -/
structure Marks where
  visited : List Nat
  prev : Nat → Option Nat

/-- Embedding of `reset_bfs_marks`: walking every entity of the table
and clearing `visited`/`prev` leaves no id marked and every `prev`
NULL, whatever the incoming marks were. -/
def reset_bfs_marks (_s : GState) (_m : Marks) : Marks :=
  ⟨[], fun _ => none⟩

/-- Successor ids of an entity, in adjacency-list order (the order the
BFS inner loop `for (r = cur->relations; r; r = r->next)` visits). -/
def succsOf (s : GState) (id : Nat) : List Nat := (relsOf s id).map (·.target)

/-- The BFS inner loop over the relations of the dequeued entity `cur`:
every unvisited target is marked visited, gets `prev = cur`, and is
appended to the queue, in adjacency-list order. -/
def enqueue_all (cur : Nat) :
    List Nat → List Nat → List Nat → (Nat → Option Nat) →
      List Nat × List Nat × (Nat → Option Nat)
  | [], q, vis, prev => (q, vis, prev)
  | t :: ts, q, vis, prev =>
    if t ∈ vis then enqueue_all cur ts q vis prev
    else enqueue_all cur ts (q ++ [t]) (t :: vis) (fun x => if x = t then some cur else prev x)

/-- The BFS `while (head < tail)` loop: dequeue, terminate with the
`prev` map the moment the target is dequeued, otherwise expand the
dequeued entity.  The C loop needs no fuel; here a fuel argument makes
the function structurally total, and `bfs_loop_spec` shows that the fuel
`find_path_bfs` supplies can never run out on a well-formed graph. -/
def bfs_loop (succs : Nat → List Nat) (tgt : Nat) :
    Nat → List Nat → List Nat → (Nat → Option Nat) → Option (Nat → Option Nat)
  | 0, _, _, _ => none
  | _ + 1, [], _, _ => none
  | fuel + 1, cur :: rest, vis, prev =>
    if cur = tgt then some prev
    else
      let st := enqueue_all cur (succs cur) rest vis prev
      bfs_loop succs tgt fuel st.1 st.2.1 st.2.2

/-- The path-reconstruction walk `for (p = tgt; p; p = p->prev)`: it
collects target first, source last (the C code then prints the reverse).
The fuel bounds the walk; `find_path_bfs` passes the entity count, which
`walk_prev_spec` shows is enough on the states the loop produces. -/
def walk_prev : Nat → (Nat → Option Nat) → Nat → List Nat
  | 0, _, v => [v]
  | fuel + 1, prev, v =>
    match prev v with
    | none => [v]
    | some u => v :: walk_prev fuel prev u

/-- Outcome of `find_path_bfs` (the C function reports these four cases
on stdout; the found case carries the reconstructed entity names in
source-to-target order). -/
inductive PathResult where
  | SourceNotFound
  | TargetNotFound
  | PathNotFound
  | Found (names : List Str)
deriving DecidableEq, Repr

/-- Endpoint resolution used by `find_path_bfs`, selected by its `fuzzy`
flag exactly as in the C code. -/
def resolve_endpoint (s : GState) (fuzzy : Bool) (choice : Int) (input : Str) : Option Nat :=
  if fuzzy then search_entity_smart s input choice else find_entity_exact s input

/-- Embedding of `find_path_bfs`: resolve both endpoints (source first;
its failure is reported before the target is even resolved), reset the
transient marks of the whole table, run the BFS from the source, and on
success reconstruct the path along the `prev` chain and reverse it. -/
def find_path_bfs (s : GState) (m : Marks) (fuzzy : Bool) (c1 c2 : Int)
    (src_in tgt_in : Str) : PathResult :=
  match resolve_endpoint s fuzzy c1 src_in with
  | none => .SourceNotFound
  | some src =>
    match resolve_endpoint s fuzzy c2 tgt_in with
    | none => .TargetNotFound
    | some tgt =>
      let m0 := reset_bfs_marks s m
      let n := s.arena.length
      match bfs_loop (succsOf s) tgt (n + 1) [src] (src :: m0.visited) m0.prev with
      | none => .PathNotFound
      | some prev => .Found (((walk_prev n prev tgt).reverse).map (nameOf s))

/-- Embedding of `parse_relation_line`: split at the first two `'|'`
bytes, reject a missing delimiter or a zero-length raw segment, truncate
each segment to its destination buffer (`NAME_LEN - 1` / `REL_LEN - 1`),
then trim and squeeze each segment.  Note the emptiness test is on the
raw segment lengths, before trimming. -/
def parse_relation_line (line : Str) : Option (Str × Str × Str) :=
  let seg1 := line.takeWhile (· ≠ '|')
  if seg1.length = line.length then none
  else
    let rest := line.drop (seg1.length + 1)
    let seg2 := rest.takeWhile (· ≠ '|')
    if seg2.length = rest.length then none
    else
      let seg3 := rest.drop (seg2.length + 1)
      if seg1.length = 0 ∨ seg2.length = 0 ∨ seg3.length = 0 then none
      else
        some (normalize (seg1.take (NAME_LEN - 1)),
              normalize (seg2.take (REL_LEN - 1)),
              normalize (seg3.take (NAME_LEN - 1)))

/-- Embedding of the line loop of `load_from_file` over the lines of the
file (newlines already stripped): skip blank and `'#'` lines, count a
parse failure as skipped and continue, otherwise `add_relationship` and
count the relation as loaded.  Returns (state, loaded, skipped). -/
def load_from_file (s : GState) : List Str → GState × Nat × Nat
  | [] => (s, 0, 0)
  | raw :: restLines =>
    let line := trim raw
    if line = [] then load_from_file s restLines
    else if line.head? = some '#' then load_from_file s restLines
    else
      match parse_relation_line line with
      | none =>
        let r := load_from_file s restLines
        (r.1, r.2.1, r.2.2 + 1)
      | some (a, rl, b) =>
        let r := load_from_file (add_relationship s a rl b) restLines
        (r.1, r.2.1 + 1, r.2.2)

/-- All (source name, label, target name) triples of the graph, in the
iteration order `save_to_file` walks. -/
def triplesOf (s : GState) : List (Str × Str × Str) :=
  (iterIds s).flatMap (fun id => (relsOf s id).map (fun r => (nameOf s id, r.rel, nameOf s r.target)))

/-- Embedding of `save_to_file`: one `source|label|target` line per
relation record, in hash-table iteration order, no escaping. -/
def save_to_file (s : GState) : List Str :=
  (triplesOf s).map (fun t => t.1 ++ '|' :: (t.2.1 ++ '|' :: t.2.2))

/-- The public mutating operations of the program: manual entity add
(menu choice 1), manual relationship add (menu choice 2), and batch
file import (menu choice 5).  Each carries the raw text the user supplies;
the `read_line` buffer sizes of the C code cap the raw lengths, which
the embedding reproduces with `List.take`. -/
inductive Op where
  | addEntity (raw : Str)
  | addRel (src rel tgt : Str)
  | load (lines : List Str)

/-- One step of the interactive loop for the three mutating operations,
with the exact validation the C menu performs: choice 1 rejects an
empty normalized name and an existing exact name; choice 2 rejects any
empty normalized field; choice 5 is `load_from_file`. -/
def apply_op (s : GState) : Op → GState
  | .addEntity raw =>
    let nm := normalize (raw.take (LINE_BUF - 1))
    if nm = [] then s
    else
      match find_entity_exact s nm with
      | some _ => s
      | none => (create_entity s nm).2
  | .addRel src rel tgt =>
    let a := normalize (src.take (NAME_LEN - 1))
    let r := normalize (rel.take (REL_LEN - 1))
    let b := normalize (tgt.take (NAME_LEN - 1))
    if a = [] ∨ r = [] ∨ b = [] then s else add_relationship s a r b
  | .load lines => (load_from_file s lines).1

/-- The state reached from a fresh process by a sequence of public
operations. -/
def run_ops (ops : List Op) : GState := ops.foldl apply_op emptyState

/-! ## String utility lemmas -/

theorem squeeze_spaces_eq_nil_iff (s : Str) : squeeze_spaces s = [] ↔ s = [] := by
  unfold squeeze_spaces
  cases s with
  | nil => simp [squeezeAux]
  | cons c rest =>
    simp only [squeezeAux]
    constructor
    · intro h
      by_cases hc : isSpace c <;> simp [hc] at h
    · intro h
      exact absurd h (by simp)

theorem trim_eq_nil_iff (s : Str) : trim s = [] ↔ ∀ c ∈ s, isSpace c := by
  unfold trim
  rw [List.reverse_eq_nil_iff, List.dropWhile_eq_nil_iff]
  constructor
  · intro h c hc
    have hsplit := List.takeWhile_append_dropWhile (p := isSpace) (l := s)
    rw [← hsplit] at hc
    rcases List.mem_append.mp hc with h1 | h2
    · exact List.mem_takeWhile_imp h1
    · exact h c (List.mem_reverse.mpr h2)
  · intro h c hc
    exact h c ((List.dropWhile_sublist isSpace).subset (List.mem_reverse.mp hc))

theorem normalize_eq_nil_iff (s : Str) : normalize s = [] ↔ ∀ c ∈ s, isSpace c := by
  unfold normalize
  rw [squeeze_spaces_eq_nil_iff, trim_eq_nil_iff]

theorem normalize_take_eq_nil (s : Str) (n : Nat) (h : normalize s = []) :
    normalize (s.take n) = [] := by
  rw [normalize_eq_nil_iff] at h ⊢
  exact fun c hc => h c (List.mem_of_mem_take hc)

theorem squeezeAux_length_le (b : Bool) (s : Str) : (squeezeAux b s).length ≤ s.length := by
  induction s generalizing b with
  | nil => simp [squeezeAux]
  | cons c rest ih =>
    simp only [squeezeAux]
    by_cases hc : isSpace c
    · simp only [hc, if_true]
      cases b
      · simpa using Nat.succ_le_succ (ih true)
      · simpa using Nat.le_succ_of_le (ih true)
    · simpa [hc] using Nat.succ_le_succ (ih false)

theorem trim_length_le (s : Str) : (trim s).length ≤ s.length := by
  unfold trim
  calc ((s.dropWhile isSpace).reverse.dropWhile isSpace).reverse.length
      = ((s.dropWhile isSpace).reverse.dropWhile isSpace).length := by simp
    _ ≤ (s.dropWhile isSpace).reverse.length := (List.dropWhile_sublist isSpace).length_le
    _ = (s.dropWhile isSpace).length := by simp
    _ ≤ s.length := (List.dropWhile_sublist isSpace).length_le

theorem normalize_length_le (s : Str) : (normalize s).length ≤ s.length :=
  le_trans (squeezeAux_length_le false (trim s)) (trim_length_le s)

/-- On NUL-free strings (every C string is), `ci_cmp` returns 0 exactly
when the bytewise lowercasings agree. -/
theorem ci_cmp_eq_zero_iff (a b : Str) (ha : ∀ c ∈ a, c.toNat ≠ 0) (hb : ∀ c ∈ b, c.toNat ≠ 0) :
    ci_cmp a b = 0 ↔ a.map toLowerCh = b.map toLowerCh := by
  induction a generalizing b with
  | nil =>
    cases b with
    | nil => simp [ci_cmp]
    | cons y ys =>
      simp only [ci_cmp, List.map_nil, List.map_cons]
      constructor
      · intro h
        exact absurd (by omega : (y.toNat : Int) = 0)
          (by exact_mod_cast hb y (by simp))
      · intro h; exact absurd h (by simp)
  | cons x xs ih =>
    cases b with
    | nil =>
      simp only [ci_cmp, List.map_nil, List.map_cons]
      constructor
      · intro h
        exact absurd (by exact_mod_cast h : x.toNat = 0) (ha x (by simp))
      · intro h; exact absurd h (by simp)
    | cons y ys =>
      simp only [ci_cmp, List.map_cons]
      by_cases hxy : (toLowerCh x).toNat = (toLowerCh y).toNat
      · have hch : toLowerCh x = toLowerCh y := Char.eq_of_val_eq (UInt32.ext hxy)
        rw [if_neg (by simp [hxy]), hch]
        simp only [List.cons.injEq, true_and]
        exact ih ys (fun c hc => ha c (List.mem_cons_of_mem _ hc))
          (fun c hc => hb c (List.mem_cons_of_mem _ hc))
      · rw [if_pos (by simpa using hxy)]
        constructor
        · intro h
          exact absurd (by exact_mod_cast (by omega :
            ((toLowerCh x).toNat : Int) = (toLowerCh y).toNat)) hxy
        · intro h
          injection h with h1 h2
          exact absurd (congrArg Char.toNat h1) hxy

theorem hash_index_lt (s : Str) : hash_index s < HASH_SIZE :=
  Nat.mod_lt _ (by decide)

/-! ## EntityIndex lemmas -/

theorem take_of_le_name_len (name : Str) (hlen : name.length ≤ NAME_LEN - 1) :
    name.take (NAME_LEN - 1) = name :=
  List.take_of_length_le hlen

/-- After `create_entity s name` with a name short enough not to be
truncated, an exact search for that name succeeds and returns the new
entity. -/
theorem find_entity_exact_create (s : GState) (name : Str)
    (hb : s.buckets.length = HASH_SIZE) (hlen : name.length ≤ NAME_LEN - 1) :
    find_entity_exact (create_entity s name).2 name = some (create_entity s name).1 := by
  have htake := take_of_le_name_len name hlen
  have hidx : hash_index name < s.buckets.length := hb ▸ hash_index_lt name
  unfold find_entity_exact create_entity nameOf
  simp only [htake]
  simp [List.getD_eq_getElem?_getD, List.getElem?_set_self hidx, List.find?_cons,
    List.getElem?_concat_length]

/-- Claim C3, amended: for a name below the `NAME_LEN` truncation
threshold, `get_or_create_entity` is idempotent: the second call returns
the same entity id and leaves the state unchanged; the arena grows by
exactly one on the first call when the name was absent, and not at all
when it was already present. -/
theorem get_or_create_idempotent (s : GState) (name : Str)
    (hb : s.buckets.length = HASH_SIZE) (hlen : name.length ≤ NAME_LEN - 1) :
    (get_or_create_entity (get_or_create_entity s name).2 name).1 =
        (get_or_create_entity s name).1 ∧
    (get_or_create_entity (get_or_create_entity s name).2 name).2 =
        (get_or_create_entity s name).2 ∧
    (find_entity_exact s name = none →
        (get_or_create_entity s name).2.arena.length = s.arena.length + 1) ∧
    (find_entity_exact s name ≠ none → (get_or_create_entity s name).2 = s) := by
  cases h : find_entity_exact s name with
  | some e =>
    unfold get_or_create_entity
    rw [h]
    simp [h]
  | none =>
    have hfind := find_entity_exact_create s name hb hlen
    have hg : get_or_create_entity s name = create_entity s name := by
      unfold get_or_create_entity; rw [h]
    have hg2 : get_or_create_entity (create_entity s name).2 name =
        ((create_entity s name).1, (create_entity s name).2) := by
      unfold get_or_create_entity; rw [hfind]
    rw [hg, hg2]
    refine ⟨rfl, rfl, ?_, fun hne => absurd rfl hne⟩
    intro _
    unfold create_entity
    simp

/-! ## Fuzzy resolution -/

/-- Claim C2: the fuzzy search short-circuits tier by tier.  (a) An
input that normalizes to the empty string fails with no match (for every
possible prompt answer, so no prompt is consulted).  (b) If some live
entity's name ci-compares equal to the normalized key, the first such
entity in table iteration order is returned immediately, again for
every prompt answer.  (c) With no exact match, the suggestion set
submitted for disambiguation comes from the prefix tier whenever that
tier collected at least one candidate, and from the substring tier only
when the prefix tier collected zero candidates. -/
theorem search_entity_smart_tiers :
    (∀ s input c, normalize input = [] → search_entity_smart s input c = none) ∧
    (∀ s input key, key = normalize (input.take (NAME_LEN - 1)) → key ≠ [] →
      (∃ id ∈ iterIds s, ci_cmp (nameOf s id) key = 0) →
      ∃ e, (iterIds s).find? (fun id => ci_cmp (nameOf s id) key == 0) = some e ∧
        e ∈ iterIds s ∧ ci_cmp (nameOf s e) key = 0 ∧
        ∀ c, search_entity_smart s input c = some e) ∧
    (∀ s input key, key = normalize (input.take (NAME_LEN - 1)) → key ≠ [] →
      (iterIds s).find? (fun id => ci_cmp (nameOf s id) key == 0) = none →
      ((tier2_candidates s key ≠ [] → ∀ c,
          search_entity_smart s input c =
            fuzzy_pick_from_suggestions ((tier2_candidates s key).take SUGGEST_MAX) c) ∧
        (tier2_candidates s key = [] → ∀ c,
          search_entity_smart s input c =
            fuzzy_pick_from_suggestions ((tier3_candidates s key).take SUGGEST_MAX) c))) := by
  refine ⟨?_, ?_, ?_⟩
  · intro s input c h
    have hkey : normalize (input.take (NAME_LEN - 1)) = [] :=
      normalize_take_eq_nil input _ h
    unfold search_entity_smart
    simp [hkey]
  · intro s input key hkeydef hkey hex
    have hsome : ((iterIds s).find? (fun id => ci_cmp (nameOf s id) key == 0)).isSome := by
      rw [List.find?_isSome]
      obtain ⟨id, hid, hcmp⟩ := hex
      exact ⟨id, hid, by simpa using hcmp⟩
    obtain ⟨e, he⟩ := Option.isSome_iff_exists.mp hsome
    refine ⟨e, he, List.mem_of_find?_eq_some he, by simpa using List.find?_some he, ?_⟩
    intro c
    unfold search_entity_smart
    rw [← hkeydef, if_neg hkey, he]
  · intro s input key hkeydef hkey hnone
    constructor
    · intro hne c
      unfold search_entity_smart
      rw [← hkeydef, if_neg hkey, hnone]
      have : (tier2_candidates s key).take SUGGEST_MAX ≠ [] := by
        rw [ne_eq, List.take_eq_nil_iff]
        simp [hne, SUGGEST_MAX]
      simp [this]
    · intro hnil c
      unfold search_entity_smart
      rw [← hkeydef, if_neg hkey, hnone]
      simp [hnil]

/-- Claim C9: the disambiguation contract of
`fuzzy_pick_from_suggestions`.  An empty candidate set fails; a
singleton is returned directly whatever the prompt answer would be (no
prompt); with two or more candidates an in-range 1-indexed selection
returns the corresponding candidate, and a selection of 0, negative, or
beyond the count fails with no entity.  (Resolution is a pure function
of the candidate list and the selection, so the graph state is
untouched by construction.) -/
theorem fuzzy_pick_contract :
    (∀ c, fuzzy_pick_from_suggestions [] c = none) ∧
    (∀ x c, fuzzy_pick_from_suggestions [x] c = some x) ∧
    (∀ sugg c x, 2 ≤ sugg.length → 1 ≤ c → c ≤ (sugg.length : Int) →
      sugg[c.toNat - 1]? = some x → fuzzy_pick_from_suggestions sugg c = some x) ∧
    (∀ sugg c, 2 ≤ sugg.length → (c < 1 ∨ (sugg.length : Int) < c) →
      fuzzy_pick_from_suggestions sugg c = none) := by
  refine ⟨fun c => rfl, fun x c => rfl, ?_, ?_⟩
  · intro sugg c x hlen h1 h2 hget
    match sugg, hlen with
    | a :: b :: t, _ =>
      show (if 1 ≤ c ∧ c ≤ ((a :: b :: t).length : Int) then
          some ((a :: b :: t).getD (c.toNat - 1) 0) else none) = some x
      rw [if_pos ⟨h1, h2⟩]
      congr 1
      rw [List.getD_eq_getElem?_getD, hget]
      rfl
  · intro sugg c hlen hout
    match sugg, hlen with
    | a :: b :: t, _ =>
      show (if 1 ≤ c ∧ c ≤ ((a :: b :: t).length : Int) then
          some ((a :: b :: t).getD (c.toNat - 1) 0) else none) = none
      rw [if_neg]
      rintro ⟨hc1, hc2⟩
      rcases hout with h | h
      · omega
      · omega

/-- The three-entity fixture of the spec's fuzzy-tier example
("Alice", "Alan", "Bob", added manually in that order). -/
def fuzzyGraph : GState :=
  (create_entity (create_entity (create_entity emptyState "Alice".toList).2
    "Alan".toList).2 "Bob".toList).2

/-- Claim C3, counterexample: with the 128-byte name
`'a' * NAME_LEN`, the first call stores the name truncated to 127
bytes, so the second exact lookup with the full name misses and a
second, distinct entity is created: `get_or_create_entity` returns two
different entities for the same name. -/
theorem get_or_create_truncation_counterexample :
    (get_or_create_entity
        (get_or_create_entity emptyState (List.replicate NAME_LEN 'a')).2
        (List.replicate NAME_LEN 'a')).1 ≠
      (get_or_create_entity emptyState (List.replicate NAME_LEN 'a')).1 ∧
    (get_or_create_entity
        (get_or_create_entity emptyState (List.replicate NAME_LEN 'a')).2
        (List.replicate NAME_LEN 'a')).2.arena.length = 2 := by
  constructor <;> decide

/-- Witness for `get_or_create_idempotent` at the fresh name "Bob" over
the empty state. -/
theorem get_or_create_idempotent_witness :
    emptyState.buckets.length = HASH_SIZE ∧ ("Bob".toList : Str).length ≤ NAME_LEN - 1 ∧
    (get_or_create_entity (get_or_create_entity emptyState "Bob".toList).2 "Bob".toList).1 =
      (get_or_create_entity emptyState "Bob".toList).1 ∧
    (get_or_create_entity emptyState "Bob".toList).2.arena.length =
      emptyState.arena.length + 1 := by
  have h := get_or_create_idempotent emptyState "Bob".toList (by decide) (by decide)
  exact ⟨by decide, by decide, h.1, h.2.2.1 (by decide)⟩

/-- Witness for `search_entity_smart_tiers` on the spec's three-entity
fixture: all-blank input fails, "ALICE" hits the exact tier
(entity id 0 is "Alice"), and "OB" reaches the substring tier because
the prefix tier is empty. -/
theorem search_entity_smart_tiers_witness :
    search_entity_smart fuzzyGraph "   ".toList 5 = none ∧
    search_entity_smart fuzzyGraph "ALICE".toList 7 = some 0 ∧
    search_entity_smart fuzzyGraph "OB".toList 0 =
      fuzzy_pick_from_suggestions
        ((tier3_candidates fuzzyGraph "OB".toList).take SUGGEST_MAX) 0 := by
  obtain ⟨h1, h2, h3⟩ := search_entity_smart_tiers
  refine ⟨h1 fuzzyGraph "   ".toList 5 (by decide), ?_, ?_⟩
  · obtain ⟨e, hfind, -, -, hall⟩ :=
      h2 fuzzyGraph "ALICE".toList (normalize (("ALICE".toList : Str).take (NAME_LEN - 1)))
        rfl (by decide) ⟨0, by decide, by decide⟩
    have he : e = 0 := by
      have hvals : (iterIds fuzzyGraph).find?
          (fun id => ci_cmp (nameOf fuzzyGraph id)
            (normalize (("ALICE".toList : Str).take (NAME_LEN - 1))) == 0) = some 0 := by decide
      exact Option.some.inj (hfind.symm.trans hvals)
    exact he ▸ hall 7
  · have hkeydef : ("OB".toList : Str) = normalize (("OB".toList : Str).take (NAME_LEN - 1)) := by
      decide
    exact (h3 fuzzyGraph "OB".toList "OB".toList hkeydef (by decide) (by decide)).2 (by decide) 0

/-- Witness for `fuzzy_pick_contract` on concrete candidate lists. -/
theorem fuzzy_pick_contract_witness :
    fuzzy_pick_from_suggestions [] 1 = none ∧
    fuzzy_pick_from_suggestions [5] 9 = some 5 ∧
    fuzzy_pick_from_suggestions [4, 7, 9] 2 = some 7 ∧
    fuzzy_pick_from_suggestions [4, 7] 0 = none ∧
    fuzzy_pick_from_suggestions [4, 7] 3 = none := by
  obtain ⟨h1, h2, h3, h4⟩ := fuzzy_pick_contract
  exact ⟨h1 1, h2 5 9, h3 [4, 7, 9] 2 7 (by decide) (by decide) (by decide) (by decide),
    h4 [4, 7] 0 (by decide) (Or.inl (by decide)), h4 [4, 7] 3 (by decide) (Or.inr (by decide))⟩

/-! ## Path queries: reset and failure taxonomy -/

/-- Claim C7: every path query resets the transient visited/predecessor
state of the whole table before traversing (`reset_bfs_marks` leaves no
entity marked), so the result of a query is the same for every incoming
mark state — in particular, a second query after any earlier query
computes exactly what it would compute on a mark-free graph. -/
theorem find_path_bfs_reset :
    (∀ s m, reset_bfs_marks s m = ⟨[], fun _ => none⟩) ∧
    (∀ s m m' fz c1 c2 a b,
      find_path_bfs s m fz c1 c2 a b = find_path_bfs s m' fz c1 c2 a b) ∧
    (∀ s m fz c1 c2 a b,
      find_path_bfs s m fz c1 c2 a b =
        find_path_bfs s (reset_bfs_marks s m) fz c1 c2 a b) :=
  ⟨fun _ _ => rfl, fun _ _ _ _ _ _ _ _ => rfl, fun _ _ _ _ _ _ _ => rfl⟩

/-- Claim C8: the three failures of a path query are distinct and
exhaustive.  `SourceNotFound` is reported exactly when the source input
does not resolve (the target is not even resolved then);
`TargetNotFound` exactly when the source resolves and the target does
not; `PathNotFound` exactly when both resolve and the BFS queue empties
(`bfs_loop` runs out of queue) without dequeuing the target; and a
`Found` result only arises from a successful BFS.  No failure
constructor carries a path. -/
theorem find_path_bfs_taxonomy (s : GState) (m : Marks) (fz : Bool) (c1 c2 : Int)
    (a b : Str) :
    (find_path_bfs s m fz c1 c2 a b = .SourceNotFound ↔
      resolve_endpoint s fz c1 a = none) ∧
    (find_path_bfs s m fz c1 c2 a b = .TargetNotFound ↔
      (∃ e, resolve_endpoint s fz c1 a = some e) ∧ resolve_endpoint s fz c2 b = none) ∧
    (find_path_bfs s m fz c1 c2 a b = .PathNotFound ↔
      ∃ e f, resolve_endpoint s fz c1 a = some e ∧ resolve_endpoint s fz c2 b = some f ∧
        bfs_loop (succsOf s) f (s.arena.length + 1) [e] [e] (fun _ => none) = none) ∧
    (∀ p, find_path_bfs s m fz c1 c2 a b = .Found p →
      ∃ e f prev, resolve_endpoint s fz c1 a = some e ∧
        resolve_endpoint s fz c2 b = some f ∧
        bfs_loop (succsOf s) f (s.arena.length + 1) [e] [e] (fun _ => none) = some prev ∧
        p = ((walk_prev s.arena.length prev f).reverse).map (nameOf s)) := by
  cases hsrc : resolve_endpoint s fz c1 a with
  | none =>
    refine ⟨by simp [find_path_bfs, hsrc], by simp [find_path_bfs, hsrc], ?_, ?_⟩
    · simp [find_path_bfs, hsrc]
    · intro p hp
      simp [find_path_bfs, hsrc] at hp
  | some e =>
    cases htgt : resolve_endpoint s fz c2 b with
    | none =>
      have hfp : find_path_bfs s m fz c1 c2 a b = .TargetNotFound := by
        simp [find_path_bfs, hsrc, htgt]
      refine ⟨by rw [hfp]; simp, by rw [hfp]; simp, by rw [hfp]; simp, ?_⟩
      intro p hp
      rw [hfp] at hp
      exact absurd hp (by simp)
    | some f =>
      cases hloop : bfs_loop (succsOf s) f (s.arena.length + 1) [e] [e] (fun _ => none) with
      | none =>
        have hfp : find_path_bfs s m fz c1 c2 a b = .PathNotFound := by
          simp [find_path_bfs, hsrc, htgt, reset_bfs_marks, hloop]
        refine ⟨by rw [hfp]; simp, by rw [hfp]; simp, ?_, ?_⟩
        · exact iff_of_true hfp ⟨e, f, rfl, rfl, hloop⟩
        · intro p hp
          rw [hfp] at hp
          exact absurd hp (by simp)
      | some prev =>
        have hfp : find_path_bfs s m fz c1 c2 a b =
            .Found (((walk_prev s.arena.length prev f).reverse).map (nameOf s)) := by
          simp [find_path_bfs, hsrc, htgt, reset_bfs_marks, hloop]
        refine ⟨by rw [hfp]; simp, by rw [hfp]; simp, ?_, ?_⟩
        · rw [hfp]
          constructor
          · intro h
            exact absurd h (by simp)
          · rintro ⟨e', f', he', hf', hl⟩
            cases he'
            cases hf'
            rw [hloop] at hl
            exact absurd hl (by simp)
        · intro p hp
          rw [hfp] at hp
          have hpeq : ((walk_prev s.arena.length prev f).reverse).map (nameOf s) = p := by
            injection hp
          exact ⟨e, f, prev, rfl, rfl, hloop, hpeq.symm⟩

/-! ## Import parsing -/

theorem takeWhile_append_cons {p : Char → Bool} (a : Str) (x : Char) (rest : Str)
    (ha : ∀ c ∈ a, p c) (hx : ¬p x) :
    (a ++ x :: rest).takeWhile p = a := by
  induction a with
  | nil => simp [List.takeWhile_cons, hx]
  | cons c t ih =>
    have hc : p c := ha c (by simp)
    simp only [List.cons_append, List.takeWhile_cons, hc, if_true]
    rw [ih (fun d hd => ha d (by simp [hd]))]

theorem drop_append_cons (a : Str) (x : Char) (rest : Str) :
    (a ++ x :: rest).drop (a.length + 1) = rest := by
  induction a with
  | nil => simp
  | cons c t ih => simpa using ih

/-- The byte `'|'` never occurs in a `takeWhile (· ≠ '|')` segment. -/
theorem bar_not_mem_takeWhile (l : Str) : '|' ∉ l.takeWhile (· ≠ '|') := by
  intro hmem
  have := List.mem_takeWhile_imp hmem
  simp at this

/-- A string whose bar-free prefix is proper splits at its first bar. -/
theorem split_first_bar (l : Str) (h : (l.takeWhile (· ≠ '|')).length ≠ l.length) :
    l = l.takeWhile (· ≠ '|') ++ '|' :: l.drop ((l.takeWhile (· ≠ '|')).length + 1) := by
  have hpre := List.takeWhile_append_dropWhile (p := fun x => decide (x ≠ '|')) (l := l)
  have hdw : l.dropWhile (fun x => decide (x ≠ '|')) ≠ [] := by
    intro hnil
    apply h
    conv_rhs => rw [← hpre, hnil, List.append_nil]
  obtain ⟨x, xs, hx⟩ := List.exists_cons_of_ne_nil hdw
  have hxbar : x = '|' := by
    have hh := List.head?_dropWhile_not (fun x => decide (x ≠ '|')) l
    rw [hx] at hh
    simpa using hh
  have hl : l = l.takeWhile (fun x => decide (x ≠ '|')) ++ '|' :: xs := by
    conv_lhs => rw [← hpre]
    rw [hx, hxbar]
  have hxs := drop_append_cons (l.takeWhile (fun x => decide (x ≠ '|'))) '|' xs
  rw [← hl] at hxs
  rw [hxs]
  exact hl

/-- Successful parse of a line of the shape `a|r|b` (first two bars
delimiting, `b` arbitrary and possibly containing further bars). -/
theorem parse_relation_line_app (a r b : Str)
    (hba : '|' ∉ a) (hbr : '|' ∉ r) (ha : a ≠ []) (hr : r ≠ []) (hb : b ≠ []) :
    parse_relation_line (a ++ '|' :: (r ++ '|' :: b)) =
      some (normalize (a.take (NAME_LEN - 1)), normalize (r.take (REL_LEN - 1)),
        normalize (b.take (NAME_LEN - 1))) := by
  have hta : (a ++ '|' :: (r ++ '|' :: b)).takeWhile (· ≠ '|') = a :=
    takeWhile_append_cons a '|' (r ++ '|' :: b)
      (fun c hc => by
        simp only [ne_eq, decide_eq_true_eq]
        rintro rfl
        exact hba hc)
      (by simp)
  have hda : (a ++ '|' :: (r ++ '|' :: b)).drop (a.length + 1) = r ++ '|' :: b :=
    drop_append_cons a '|' (r ++ '|' :: b)
  have htr : (r ++ '|' :: b).takeWhile (· ≠ '|') = r :=
    takeWhile_append_cons r '|' b
      (fun c hc => by
        simp only [ne_eq, decide_eq_true_eq]
        rintro rfl
        exact hbr hc)
      (by simp)
  have hdr : (r ++ '|' :: b).drop (r.length + 1) = b :=
    drop_append_cons r '|' b
  simp only [parse_relation_line]
  simp only [hta, hda, htr, hdr]
  rw [if_neg (by simp), if_neg (by simp),
    if_neg (by simp [List.length_eq_zero, ha, hr, hb])]

/-- A successfully parsed line decomposes as `a|r|b` around its first
two delimiter bytes, with non-empty raw segments. -/
theorem parse_relation_line_decompose (l : Str) (t : Str × Str × Str)
    (h : parse_relation_line l = some t) :
    ∃ a r b, l = a ++ '|' :: (r ++ '|' :: b) ∧ '|' ∉ a ∧ '|' ∉ r ∧
      a ≠ [] ∧ r ≠ [] ∧ b ≠ [] ∧
      t = (normalize (a.take (NAME_LEN - 1)), normalize (r.take (REL_LEN - 1)),
        normalize (b.take (NAME_LEN - 1))) := by
  simp only [parse_relation_line] at h
  split at h
  · exact absurd h (by simp)
  · rename_i h1
    split at h
    · exact absurd h (by simp)
    · rename_i h2
      split at h
      · exact absurd h (by simp)
      · rename_i h3
        push_neg at h3
        have ht := Option.some.inj h
        refine ⟨l.takeWhile (· ≠ '|'),
          (l.drop ((l.takeWhile (· ≠ '|')).length + 1)).takeWhile (· ≠ '|'),
          (l.drop ((l.takeWhile (· ≠ '|')).length + 1)).drop
            (((l.drop ((l.takeWhile (· ≠ '|')).length + 1)).takeWhile (· ≠ '|')).length + 1),
          ?_, bar_not_mem_takeWhile l, bar_not_mem_takeWhile _, ?_, ?_, ?_, ht.symm⟩
        · have e1 := split_first_bar l h1
          have e2 := split_first_bar _ h2
          rw [e2] at e1
          exact e1
        · exact fun hnil => h3.1 (by rw [hnil]; rfl)
        · exact fun hnil => h3.2.1 (by rw [hnil]; rfl)
        · exact fun hnil => h3.2.2 (by rw [hnil]; rfl)

/-- A line that the import loop submits to the parser: non-blank after
trimming and not a `'#'` comment. -/
def is_data_line (raw : Str) : Bool :=
  !(trim raw == []) && !((trim raw).head? == some '#')

/-- The successfully parsed triples of a file, in file order. -/
def import_triples (lines : List Str) : List (Str × Str × Str) :=
  lines.filterMap (fun raw => if is_data_line raw then parse_relation_line (trim raw) else none)

/-- The data lines of a file that the parser rejects. -/
def import_bad (lines : List Str) : List Str :=
  lines.filter (fun raw => is_data_line raw && (parse_relation_line (trim raw)).isNone)

/-- Import processes every line independently: the final state is the
fold of `add_relationship` over the parsed triples, the loaded count is
the number of parsed lines and the skipped count the number of rejected
data lines — a rejected line never aborts the rest of the file. -/
theorem load_from_file_spec (s : GState) (lines : List Str) :
    load_from_file s lines =
      ((import_triples lines).foldl (fun st t => add_relationship st t.1 t.2.1 t.2.2) s,
        (import_triples lines).length, (import_bad lines).length) := by
  induction lines generalizing s with
  | nil => simp [load_from_file, import_triples, import_bad]
  | cons raw rest ih =>
    simp only [import_triples, import_bad, List.filterMap_cons, List.filter_cons]
    by_cases hblank : trim raw = []
    · have hd : is_data_line raw = false := by
        simp [is_data_line, hblank]
      simp [load_from_file, hblank, hd, ih s, import_triples, import_bad]
    · by_cases hcomment : (trim raw).head? = some '#'
      · have hd : is_data_line raw = false := by
          simp [is_data_line, hblank, hcomment]
        simp [load_from_file, hblank, hcomment, hd, ih s, import_triples, import_bad]
      · have hd : is_data_line raw = true := by
          simp [is_data_line, hblank, hcomment]
        cases hp : parse_relation_line (trim raw) with
        | none =>
          simp [load_from_file, hblank, hcomment, hd, hp, ih s, import_triples, import_bad]
        | some t =>
          obtain ⟨a, r, b⟩ := t
          simp [load_from_file, hblank, hcomment, hd, hp,
            ih (add_relationship s a r b), import_triples, import_bad]

/-- Claim C5, counterexample: the line `a| |b` is non-blank, is no
comment, and its middle segment normalizes to the empty string — by the
claim it must be rejected — yet the import accepts it (its raw segment
` ` is non-empty, and emptiness is tested before trimming): one
relation (with an empty label) is loaded and nothing is reported
skipped. -/
theorem parse_blank_segment_counterexample :
    parse_relation_line ('a' :: '|' :: ' ' :: '|' :: ['b']) = some (['a'], [], ['b']) ∧
    (load_from_file emptyState [['a', '|', ' ', '|', 'b']]).2 = (1, 0) := by
  exact ⟨by decide, by decide⟩

/-- Claim C5, amended: the import rejects exactly the data lines that
do not decompose as `a|r|b` around their first two delimiter bytes with
all three raw segments non-empty — the emptiness test precedes
whitespace normalization, so an all-blank segment is accepted (and
yields an empty normalized field).  A rejected line only increments the
skip count and processing continues; in particular the file with one
valid line and one delimiter-free line loads exactly one relation,
reports exactly one skip, and the valid relation is present
afterward. -/
theorem load_from_file_malformed_lines :
    (∀ s lines, load_from_file s lines =
      ((import_triples lines).foldl (fun st t => add_relationship st t.1 t.2.1 t.2.2) s,
        (import_triples lines).length, (import_bad lines).length)) ∧
    (∀ l, parse_relation_line l = none ↔
      ¬∃ a r b, l = a ++ '|' :: (r ++ '|' :: b) ∧ '|' ∉ a ∧ '|' ∉ r ∧
        a ≠ [] ∧ r ≠ [] ∧ b ≠ []) ∧
    ((load_from_file emptyState ["Alice|knows|Bob".toList, "BadLine".toList]).2 = (1, 1) ∧
      triplesOf (load_from_file emptyState ["Alice|knows|Bob".toList, "BadLine".toList]).1 =
        [("Alice".toList, "knows".toList, "Bob".toList)]) := by
  refine ⟨load_from_file_spec, ?_, by decide, by decide⟩
  intro l
  constructor
  · rintro hnone ⟨a, r, b, rfl, hba, hbr, ha, hr, hb⟩
    rw [parse_relation_line_app a r b hba hbr ha hr hb] at hnone
    exact absurd hnone (by simp)
  · intro hnex
    cases hp : parse_relation_line l with
    | none => rfl
    | some t =>
      obtain ⟨a, r, b, hl, hba, hbr, ha, hr, hb, -⟩ :=
        parse_relation_line_decompose l t hp
      exact absurd ⟨a, r, b, hl, hba, hbr, ha, hr, hb⟩ hnex

/-- Claim C10: an import line whose source segment exceeds the 127-byte
name capacity is silently truncated: the parse succeeds with the
truncated source, the line is counted as loaded with no skip, and the
relationship is recorded under the truncated name. -/
theorem parse_truncates_long_segments :
    parse_relation_line (List.replicate 130 'a' ++ "|r|b".toList) =
      some (List.replicate 127 'a', "r".toList, "b".toList) ∧
    (load_from_file emptyState [List.replicate 130 'a' ++ "|r|b".toList]).2 = (1, 0) ∧
    triplesOf (load_from_file emptyState [List.replicate 130 'a' ++ "|r|b".toList]).1 =
      [(List.replicate 127 'a', "r".toList, "b".toList)] :=
  ⟨by decide, by decide, by decide⟩

/-- Witness for `load_from_file_malformed_lines`: a one-line file obeys
the processing characterization, and the bar-free line `ab` admits no
`a|r|b` decomposition (it is rejected by the parser). -/
theorem load_from_file_malformed_lines_witness :
    (load_from_file emptyState ["Alice|knows|Bob".toList] =
      ((import_triples ["Alice|knows|Bob".toList]).foldl
          (fun st t => add_relationship st t.1 t.2.1 t.2.2) emptyState,
        (import_triples ["Alice|knows|Bob".toList]).length,
        (import_bad ["Alice|knows|Bob".toList]).length)) ∧
    ¬∃ a r b, ("ab".toList : Str) = a ++ '|' :: (r ++ '|' :: b) ∧ '|' ∉ a ∧ '|' ∉ r ∧
      a ≠ [] ∧ r ≠ [] ∧ b ≠ [] :=
  ⟨load_from_file_malformed_lines.1 emptyState ["Alice|knows|Bob".toList],
    (load_from_file_malformed_lines.2.1 "ab".toList).mp (by decide)⟩

/-- The three-edge fixture of the spec's BFS example: Alice→Bob
("knows"), Bob→Carol ("knows"), Alice→Carol ("met"). -/
def exampleGraph : GState :=
  add_relationship (add_relationship (add_relationship emptyState
    "Alice".toList "knows".toList "Bob".toList)
    "Bob".toList "knows".toList "Carol".toList)
    "Alice".toList "met".toList "Carol".toList

/-- Witness for `find_path_bfs_taxonomy`: on the example graph the
three failures actually occur — unknown source, unknown target, and a
pair with no connecting path (Carol has no outgoing edges). -/
theorem find_path_bfs_taxonomy_witness :
    find_path_bfs exampleGraph ⟨[], fun _ => none⟩ false 0 0 "Nope".toList "Bob".toList =
      .SourceNotFound ∧
    find_path_bfs exampleGraph ⟨[], fun _ => none⟩ false 0 0 "Alice".toList "Nope".toList =
      .TargetNotFound ∧
    find_path_bfs exampleGraph ⟨[], fun _ => none⟩ false 0 0 "Carol".toList "Bob".toList =
      .PathNotFound := by
  refine ⟨?_, ?_, ?_⟩
  · exact (find_path_bfs_taxonomy exampleGraph ⟨[], fun _ => none⟩ false 0 0
      "Nope".toList "Bob".toList).1.mpr (by decide)
  · exact (find_path_bfs_taxonomy exampleGraph ⟨[], fun _ => none⟩ false 0 0
      "Alice".toList "Nope".toList).2.1.mpr ⟨⟨0, by decide⟩, by decide⟩
  · exact (find_path_bfs_taxonomy exampleGraph ⟨[], fun _ => none⟩ false 0 0
      "Carol".toList "Bob".toList).2.2.1.mpr ⟨2, 1, by decide, by decide, rfl⟩

/-! ## List helpers for the hash table -/

theorem getD_eq_getElem_of_lt {α : Type} [Inhabited α] (l : List α) (i : Nat) (d : α)
    (h : i < l.length) : l.getD i d = l[i] := by
  simp [List.getD_eq_getElem?_getD, List.getElem?_eq_getElem h]

/-- Consing an element onto one bucket permutes the flattened table by
one insertion. -/
theorem flatten_set_cons {α : Type} (L : List (List α)) (i : Nat) (x : α)
    (hi : i < L.length) :
    List.Perm ((L.set i (x :: L.getD i [])).flatten) (x :: L.flatten) := by
  induction L generalizing i with
  | nil => simp at hi
  | cons h t ih =>
    cases i with
    | zero =>
      simp [List.getD_eq_getElem?_getD]
    | succ j =>
      have hj : j < t.length := by simpa using hi
      simp only [List.set_cons_succ, List.flatten_cons]
      exact ((ih j hj).append_left h).trans List.perm_middle

theorem flatMap_congr_mem {α β : Type} (l : List α) (f g : α → List β)
    (h : ∀ j ∈ l, f j = g j) : l.flatMap f = l.flatMap g := by
  induction l with
  | nil => rfl
  | cons a t ih =>
    simp only [List.flatMap_cons]
    rw [h a (by simp), ih (fun j hj => h j (by simp [hj]))]

/-- Changing a function at one duplicate-free position of the index
list, by consing one element onto its output, permutes the flat map by
one insertion. -/
theorem flatMap_update_single {α β : Type} [DecidableEq α] (l : List α) (f g : α → List β)
    (S : α) (x : β) (hnd : l.Nodup) (hS : S ∈ l)
    (hsame : ∀ j ∈ l, j ≠ S → g j = f j) (hupd : g S = x :: f S) :
    List.Perm (l.flatMap g) (x :: l.flatMap f) := by
  induction l with
  | nil => simp at hS
  | cons a t ih =>
    rcases List.mem_cons.mp hS with rfl | hSt
    · have hnd' := List.nodup_cons.mp hnd
      have ht : t.flatMap g = t.flatMap f :=
        flatMap_congr_mem t g f (fun j hj => hsame j (by simp [hj])
          (fun hj' => hnd'.1 (hj' ▸ hj)))
      simp only [List.flatMap_cons, hupd, ht, List.cons_append]
      exact List.Perm.refl _
    · have ha : g a = f a := hsame a (by simp)
        (fun ha' => (List.nodup_cons.mp hnd).1 (ha' ▸ hSt))
      simp only [List.flatMap_cons, ha]
      exact ((ih (List.nodup_cons.mp hnd).2 hSt
        (fun j hj hne => hsame j (by simp [hj]) hne)).append_left (f a)).trans
        List.perm_middle

/-! ## Structure of trimmed and normalized strings -/

theorem trim_isInfix (l : Str) : trim l <:+: l := by
  unfold trim
  have h1 : (l.dropWhile isSpace).reverse.dropWhile isSpace <:+ (l.dropWhile isSpace).reverse :=
    List.dropWhile_suffix isSpace
  have h2 : ((l.dropWhile isSpace).reverse.dropWhile isSpace).reverse <+: l.dropWhile isSpace := by
    rw [← List.reverse_suffix] at *
    simpa using h1
  exact h2.isInfix.trans (List.dropWhile_suffix isSpace).isInfix

theorem trim_eq_self_of_normalize_fixed (a : Str) (h : normalize a = a) : trim a = a := by
  have hle1 : (trim a).length ≤ a.length := trim_length_le a
  have hle2 : a.length ≤ (trim a).length := by
    conv_lhs => rw [← h]
    exact squeezeAux_length_le false (trim a)
  exact (trim_isInfix a).eq_of_length (le_antisymm hle1 hle2)

theorem trim_head?_not_space (l : Str) (c : Char) (h : (trim l).head? = some c) :
    ¬isSpace c := by
  have hne : trim l ≠ [] := by
    intro hnil
    rw [hnil] at h
    exact absurd h (by simp)
  unfold trim at h hne
  set D := (l.dropWhile isSpace).reverse.dropWhile isSpace with hD
  have hDne : D ≠ [] := fun hnil => hne (by rw [← hD] at *; rw [hnil]; rfl)
  have hpre : D.reverse <+: l.dropWhile isSpace := by
    rw [← List.reverse_suffix]
    simpa [hD] using List.dropWhile_suffix (l := (l.dropWhile isSpace).reverse) isSpace
  obtain ⟨t, hteq⟩ := hpre
  have hdne : l.dropWhile isSpace ≠ [] := by
    intro hnil
    rw [hnil] at hteq
    have : D.reverse = [] := by
      cases hrev : D.reverse with
      | nil => rfl
      | cons u v => rw [hrev] at hteq; simp at hteq
    exact hDne (by simpa using congrArg List.reverse this)
  have hhead := List.head?_dropWhile_not isSpace l
  cases hd : (l.dropWhile isSpace).head? with
  | none => rw [List.head?_eq_none_iff] at hd; exact absurd hd hdne
  | some c' =>
    rw [hd] at hhead
    have hcc : c = c' := by
      have hc1 : (D.reverse).head? = some c := h
      obtain ⟨u, v, huv⟩ := List.exists_cons_of_ne_nil
        (fun hnil => hDne (by simpa using congrArg List.reverse hnil) : D.reverse ≠ [])
      rw [huv] at hc1 hteq
      rw [← hteq] at hd
      simp at hc1 hd
      rw [← hc1, ← hd]
    rw [hcc]
    simpa using hhead

theorem trim_getLast?_not_space (l : Str) (c : Char) (h : (trim l).getLast? = some c) :
    ¬isSpace c := by
  unfold trim at h
  rw [List.getLast?_reverse] at h
  have hne : (l.dropWhile isSpace).reverse.dropWhile isSpace ≠ [] := by
    intro hnil
    rw [hnil] at h
    exact absurd h (by simp)
  have hhead := List.head?_dropWhile_not isSpace (l.dropWhile isSpace).reverse
  cases hd : ((l.dropWhile isSpace).reverse.dropWhile isSpace).head? with
  | none => rw [List.head?_eq_none_iff] at hd; exact absurd hd hne
  | some c' =>
    rw [hd] at hhead
    have hcc : c = c' := by
      rw [hd] at h
      injection h with hcc
      exact hcc.symm
    rw [hcc]
    simpa using hhead

theorem trim_eq_self_of_ends (l : Str)
    (hh : ∀ c, l.head? = some c → ¬isSpace c)
    (hl : ∀ c, l.getLast? = some c → ¬isSpace c) : trim l = l := by
  have h1 : l.dropWhile isSpace = l := by
    cases l with
    | nil => rfl
    | cons c t =>
      rw [List.dropWhile_cons, if_neg (by simpa using hh c rfl)]
  unfold trim
  rw [h1]
  have h2 : l.reverse.dropWhile isSpace = l.reverse := by
    cases hr : l.reverse with
    | nil => rfl
    | cons c t =>
      rw [List.dropWhile_cons, if_neg]
      simp only [Bool.not_eq_true]
      have : l.getLast? = some c := by
        rw [← List.head?_reverse, hr]
        rfl
      simpa using hl c this
  rw [h2, List.reverse_reverse]

/-- A string fixed by normalization has a non-space head and a
non-space last byte (when non-empty), hence is left unchanged by a
further `trim`. -/
theorem normalize_fixed_ends (a : Str) (hfix : normalize a = a) (hne : a ≠ []) :
    (∀ c, a.head? = some c → ¬isSpace c) ∧ (∀ c, a.getLast? = some c → ¬isSpace c) := by
  have htrim : trim a = a := trim_eq_self_of_normalize_fixed a hfix
  constructor
  · intro c hc
    exact trim_head?_not_space a c (by rw [htrim]; exact hc)
  · intro c hc
    exact trim_getLast?_not_space a c (by rw [htrim]; exact hc)

/-- Every non-empty output of `normalize` starts with a non-space byte,
so it still has non-empty normalization. -/
theorem normalize_normalize_ne_nil (y : Str) (h : normalize y ≠ []) :
    normalize (normalize y) ≠ [] := by
  have htr : trim y ≠ [] := by
    intro hnil
    exact h (by unfold normalize; rw [hnil]; rfl)
  obtain ⟨c, rest, hcr⟩ := List.exists_cons_of_ne_nil htr
  have hcns : ¬isSpace c := by
    refine trim_head?_not_space y c ?_
    rw [hcr]
    rfl
  have hsq : normalize y = c :: squeezeAux false rest := by
    unfold normalize squeeze_spaces
    rw [hcr]
    simp [squeezeAux, hcns]
  intro hnil
  rw [normalize_eq_nil_iff] at hnil
  exact hcns (hnil c (by rw [hsq]; simp))

/-! ## Hash-table well-formedness -/

theorem getD_set_self {α : Type} (L : List α) (i : Nat) (x d : α) (hi : i < L.length) :
    (L.set i x).getD i d = x := by
  simp [List.getD_eq_getElem?_getD, List.getElem?_set_self hi]

theorem getD_set_ne {α : Type} (L : List α) (i j : Nat) (x d : α) (h : j ≠ i) :
    (L.set i x).getD j d = L.getD j d := by
  simp [List.getD_eq_getElem?_getD, List.getElem?_set_ne (Ne.symm h)]

/-- Structural well-formedness of the table, true of every state the
program can build: the bucket array has its declared size, every entity
appears in the table exactly once, table entries are exactly the
allocated arena slots, and every entity sits in the bucket its stored
name hashes to. -/
def WFTable (s : GState) : Prop :=
  s.buckets.length = HASH_SIZE ∧
  (iterIds s).Nodup ∧
  (∀ id ∈ iterIds s, id < s.arena.length) ∧
  (∀ id, id < s.arena.length → id ∈ iterIds s) ∧
  (∀ b, b < HASH_SIZE → ∀ id ∈ s.buckets.getD b [], hash_index (nameOf s id) = b)

/-- Full state well-formedness: table well-formed, every relation
target allocated, every stored name within capacity and non-blank, and
stored names pairwise distinct. -/
def StateOK (s : GState) : Prop :=
  WFTable s ∧
  (∀ id ∈ iterIds s, ∀ r ∈ relsOf s id, r.target < s.arena.length) ∧
  (∀ id ∈ iterIds s, (nameOf s id).length ≤ NAME_LEN - 1 ∧ normalize (nameOf s id) ≠ []) ∧
  (∀ i ∈ iterIds s, ∀ j ∈ iterIds s, nameOf s i = nameOf s j → i = j)

theorem stateOK_empty : StateOK emptyState := by
  constructor
  · refine ⟨by decide, by decide, by decide, by decide, by decide⟩
  · refine ⟨by decide, by decide, by decide⟩

theorem mem_iterIds_of_bucket (s : GState) (b : Nat) (hb : b < s.buckets.length)
    (id : Nat) (h : id ∈ s.buckets.getD b []) : id ∈ iterIds s := by
  unfold iterIds
  rw [getD_eq_getElem_of_lt _ _ _ hb] at h
  exact List.mem_flatten.mpr ⟨_, List.getElem_mem hb, h⟩

theorem find_entity_exact_some_spec (s : GState) (n : Str) (id : Nat)
    (h : find_entity_exact s n = some id) :
    id ∈ s.buckets.getD (hash_index n) [] ∧ nameOf s id = n :=
  ⟨List.mem_of_find?_eq_some h, by simpa using List.find?_some h⟩

theorem find_entity_exact_none_spec (s : GState) (n : Str) (hWFt : WFTable s)
    (h : find_entity_exact s n = none) :
    ∀ id ∈ iterIds s, nameOf s id ≠ n := by
  intro id hid heq
  obtain ⟨bl, hbl, hidbl⟩ := List.mem_flatten.mp hid
  obtain ⟨i, hi, hbleq⟩ := List.getElem_of_mem hbl
  have hib : i < HASH_SIZE := by rw [← hWFt.1]; exact hi
  have hplaced : hash_index (nameOf s id) = i := by
    refine hWFt.2.2.2.2 i hib id ?_
    rw [getD_eq_getElem_of_lt _ _ _ hi, hbleq]
    exact hidbl
  have hbuck : s.buckets.getD (hash_index n) [] = bl := by
    rw [← heq, hplaced, getD_eq_getElem_of_lt _ _ _ hi, hbleq]
  rw [find_entity_exact, hbuck] at h
  have := List.find?_eq_none.mp h id hidbl
  simp [heq] at this

/-- Full specification of `create_entity` for a fresh, short, non-blank
name on a well-formed state: well-formedness is preserved, the new id
is the next arena slot, the table gains exactly that id, the new record
carries the name with an empty adjacency list, old records are
untouched, and the triple multiset is unchanged. -/
theorem create_entity_spec (s : GState) (nm : Str) (hOK : StateOK s)
    (hlen : nm.length ≤ NAME_LEN - 1) (hne : normalize nm ≠ [])
    (hfind : find_entity_exact s nm = none) :
    StateOK (create_entity s nm).2 ∧
    (create_entity s nm).1 = s.arena.length ∧
    (create_entity s nm).2.arena.length = s.arena.length + 1 ∧
    List.Perm (iterIds (create_entity s nm).2) ((create_entity s nm).1 :: iterIds s) ∧
    nameOf (create_entity s nm).2 (create_entity s nm).1 = nm ∧
    relsOf (create_entity s nm).2 (create_entity s nm).1 = [] ∧
    (∀ j, j < s.arena.length → nameOf (create_entity s nm).2 j = nameOf s j ∧
      relsOf (create_entity s nm).2 j = relsOf s j) ∧
    List.Perm (triplesOf (create_entity s nm).2) (triplesOf s) := by
  obtain ⟨⟨hblen, hnd, hinr, hcomp, hplaced⟩, htgt, hnames, huniq⟩ := hOK
  have htake : nm.take (NAME_LEN - 1) = nm := take_of_le_name_len nm hlen
  set id := s.arena.length with hiddef
  set idx := hash_index nm with hidxdef
  set s' := (create_entity s nm).2 with hseq
  have hid1 : (create_entity s nm).1 = id := rfl
  have hs'arena : s'.arena = s.arena ++ [⟨nm, []⟩] := by
    rw [hseq]
    unfold create_entity
    simp [htake]
  have hs'buckets : s'.buckets = s.buckets.set idx (id :: s.buckets.getD idx []) := by
    rw [hseq]
    unfold create_entity
    simp [htake, hidxdef]
  have hidxlt : idx < s.buckets.length := hblen ▸ hash_index_lt nm
  have f1 : ∀ j, j < s.arena.length →
      s'.arena.getD j default = s.arena.getD j default := by
    intro j hj
    rw [hs'arena, List.getD_eq_getElem?_getD, List.getElem?_append_left hj,
      ← List.getD_eq_getElem?_getD]
  have f1n : ∀ j, j < s.arena.length → nameOf s' j = nameOf s j := by
    intro j hj
    unfold nameOf
    rw [f1 j hj]
  have f1r : ∀ j, j < s.arena.length → relsOf s' j = relsOf s j := by
    intro j hj
    unfold relsOf
    rw [f1 j hj]
  have f2 : s'.arena.getD id default = ⟨nm, []⟩ := by
    rw [hs'arena, hiddef]
    simp [List.getD_eq_getElem?_getD]
  have f2n : nameOf s' id = nm := by unfold nameOf; rw [f2]
  have f2r : relsOf s' id = [] := by unfold relsOf; rw [f2]
  have f3 : List.Perm (iterIds s') (id :: iterIds s) := by
    unfold iterIds
    rw [hs'buckets]
    exact flatten_set_cons s.buckets idx id hidxlt
  have hidfresh : id ∉ iterIds s := fun hmem => absurd (hinr id hmem) (by omega)
  have hmem' : ∀ j, j ∈ iterIds s' ↔ j = id ∨ j ∈ iterIds s := by
    intro j
    rw [f3.mem_iff]
    simp
  have harena' : s'.arena.length = s.arena.length + 1 := by rw [hs'arena]; simp
  have hnamesmem : ∀ j ∈ iterIds s, nameOf s' j = nameOf s j :=
    fun j hj => f1n j (hinr j hj)
  refine ⟨⟨⟨?_, ?_, ?_, ?_, ?_⟩, ?_, ?_, ?_⟩, hid1, harena', f3, f2n, f2r,
    fun j hj => ⟨f1n j hj, f1r j hj⟩, ?_⟩
  · rw [hs'buckets]; simpa using hblen
  · rw [f3.nodup_iff]
    exact List.nodup_cons.mpr ⟨hidfresh, hnd⟩
  · intro j hj
    rcases (hmem' j).mp hj with rfl | hold
    · omega
    · have := hinr j hold
      omega
  · intro j hj
    rw [harena'] at hj
    rcases Nat.lt_succ_iff_lt_or_eq.mp hj with hlt | rfl
    · exact (hmem' j).mpr (Or.inr (hcomp j hlt))
    · exact (hmem' _).mpr (Or.inl rfl)
  · intro b hb id' hid'
    rw [hs'buckets] at hid'
    by_cases hbeq : b = idx
    · rw [hbeq, getD_set_self _ _ _ _ hidxlt] at hid'
      rcases List.mem_cons.mp hid' with rfl | hold
      · rw [f2n, hbeq, hidxdef]
      · have hold' : id' ∈ s.buckets.getD b [] := by rw [hbeq]; exact hold
        have hmem := mem_iterIds_of_bucket s b (hblen ▸ hb) id' hold'
        rw [f1n id' (hinr id' hmem)]
        exact hplaced b hb id' hold' 
    · rw [getD_set_ne _ _ _ _ _ hbeq] at hid'
      have hmem := mem_iterIds_of_bucket s b (hblen ▸ hb) id' hid'
      rw [f1n id' (hinr id' hmem)]
      exact hplaced b hb id' hid'
  · intro j hj r hr
    rcases (hmem' j).mp hj with rfl | hold
    · rw [f2r] at hr; simp at hr
    · rw [f1r j (hinr j hold)] at hr
      have := htgt j hold r hr
      omega
  · intro j hj
    rcases (hmem' j).mp hj with rfl | hold
    · rw [f2n]
      exact ⟨hlen, hne⟩
    · rw [f1n j (hinr j hold)]
      exact hnames j hold
  · intro i hi j hj heq
    rcases (hmem' i).mp hi with rfl | holdi <;> rcases (hmem' j).mp hj with rfl | holdj
    · rfl
    · rw [f2n, f1n j (hinr j holdj)] at heq
      exact absurd heq.symm (find_entity_exact_none_spec s nm
        ⟨hblen, hnd, hinr, hcomp, hplaced⟩ hfind j holdj)
    · rw [f2n, f1n i (hinr i holdi)] at heq
      exact absurd heq (find_entity_exact_none_spec s nm
        ⟨hblen, hnd, hinr, hcomp, hplaced⟩ hfind i holdi)
    · rw [f1n i (hinr i holdi), f1n j (hinr j holdj)] at heq
      exact huniq i holdi j holdj heq
  · unfold triplesOf
    have hcongr : (iterIds s).flatMap
        (fun id => (relsOf s' id).map (fun r => (nameOf s' id, r.rel, nameOf s' r.target))) =
        (iterIds s).flatMap
        (fun id => (relsOf s id).map (fun r => (nameOf s id, r.rel, nameOf s r.target))) := by
      refine flatMap_congr_mem _ _ _ (fun j hj => ?_)
      rw [f1r j (hinr j hj), f1n j (hinr j hj)]
      refine List.map_congr_left (fun r hr => ?_)
      rw [f1n r.target (htgt j hj r hr)]
    refine List.Perm.trans (f3.flatMap_right _) ?_
    rw [List.flatMap_cons, f2r]
    simp only [List.map_nil, List.nil_append]
    rw [hcongr]

/-- Specification of `get_or_create_entity` on a well-formed state for
a short non-blank name: the result is a live entity carrying exactly
that name, existing records and the triple multiset are untouched. -/
theorem get_or_create_entity_spec (s : GState) (nm : Str) (hOK : StateOK s)
    (hlen : nm.length ≤ NAME_LEN - 1) (hne : normalize nm ≠ []) :
    StateOK (get_or_create_entity s nm).2 ∧
    (get_or_create_entity s nm).1 ∈ iterIds (get_or_create_entity s nm).2 ∧
    (get_or_create_entity s nm).1 < (get_or_create_entity s nm).2.arena.length ∧
    nameOf (get_or_create_entity s nm).2 (get_or_create_entity s nm).1 = nm ∧
    s.arena.length ≤ (get_or_create_entity s nm).2.arena.length ∧
    (∀ j, j < s.arena.length → nameOf (get_or_create_entity s nm).2 j = nameOf s j ∧
      relsOf (get_or_create_entity s nm).2 j = relsOf s j) ∧
    (∀ j ∈ iterIds s, j ∈ iterIds (get_or_create_entity s nm).2) ∧
    List.Perm (triplesOf (get_or_create_entity s nm).2) (triplesOf s) := by
  cases hfind : find_entity_exact s nm with
  | some e =>
    have hg : get_or_create_entity s nm = (e, s) := by
      unfold get_or_create_entity
      rw [hfind]
    rw [hg]
    obtain ⟨hbuck, hname⟩ := find_entity_exact_some_spec s nm e hfind
    have hmem : e ∈ iterIds s :=
      mem_iterIds_of_bucket s (hash_index nm) (hOK.1.1 ▸ hash_index_lt nm) e hbuck
    exact ⟨hOK, hmem, hOK.1.2.2.1 e hmem, hname, le_refl _,
      fun j _ => ⟨rfl, rfl⟩, fun j hj => hj, List.Perm.refl _⟩
  | none =>
    have hg : get_or_create_entity s nm = create_entity s nm := by
      unfold get_or_create_entity
      rw [hfind]
    rw [hg]
    obtain ⟨hOK', hid, hlen', hperm, hname, _, hpres, htrip⟩ :=
      create_entity_spec s nm hOK hlen hne hfind
    refine ⟨hOK', ?_, ?_, hname, by omega, hpres, ?_, htrip⟩
    · rw [hperm.mem_iff]
      simp
    · omega
    · intro j hj
      rw [hperm.mem_iff]
      simp [hj]

/-- Specification of `add_relationship` on a well-formed state for
short non-blank endpoint names: well-formedness is preserved and the
triple multiset gains exactly the new (source, truncated label, target)
triple. -/
theorem add_relationship_spec (s : GState) (src rel tgt : Str) (hOK : StateOK s)
    (hslen : src.length ≤ NAME_LEN - 1) (htlen : tgt.length ≤ NAME_LEN - 1)
    (hsne : normalize src ≠ []) (htne : normalize tgt ≠ []) :
    StateOK (add_relationship s src rel tgt) ∧
    List.Perm (triplesOf (add_relationship s src rel tgt))
      ((src, rel.take (REL_LEN - 1), tgt) :: triplesOf s) ∧
    s.arena.length ≤ (add_relationship s src rel tgt).arena.length ∧
    (∀ j ∈ iterIds s, j ∈ iterIds (add_relationship s src rel tgt)) := by
  obtain ⟨hOK1, hSmem1, hSlt1, hSname1, hlen1, hpres1, hmemmono1, htrip1⟩ :=
    get_or_create_entity_spec s src hOK hslen hsne
  set S := (get_or_create_entity s src).1 with hSdef
  set s1 := (get_or_create_entity s src).2 with hs1def
  obtain ⟨hOK2, hTmem2, hTlt2, hTname2, hlen2, hpres2, hmemmono2, htrip2⟩ :=
    get_or_create_entity_spec s1 tgt hOK1 htlen htne
  set T := (get_or_create_entity s1 tgt).1 with hTdef
  set s2 := (get_or_create_entity s1 tgt).2 with hs2def
  obtain ⟨⟨hblen2, hnd2, hinr2, hcomp2, hplaced2⟩, htgt2, hnames2, huniq2⟩ := hOK2
  set s3 := add_relationship s src rel tgt with hs3def
  have hSlt2 : S < s2.arena.length := by omega
  have hSmem2 : S ∈ iterIds s2 := hmemmono2 S hSmem1
  have hSname2 : nameOf s2 S = src := by
    rw [(hpres2 S hSlt1).1, hSname1]
  have hSrels2 : relsOf s2 S = relsOf s1 S := (hpres2 S hSlt1).2
  have hs3arena : s3.arena = s2.arena.set S
      ⟨(s2.arena.getD S default).name,
        ⟨rel.take (REL_LEN - 1), T⟩ :: (s2.arena.getD S default).relations⟩ := rfl
  have hs3buckets : s3.buckets = s2.buckets := rfl
  have hs3len : s3.arena.length = s2.arena.length := by rw [hs3arena]; simp
  have hiter3 : iterIds s3 = iterIds s2 := by
    unfold iterIds
    rw [hs3buckets]
  have hname3 : ∀ x, nameOf s3 x = nameOf s2 x := by
    intro x
    by_cases hx : x = S
    · subst hx
      unfold nameOf
      rw [hs3arena, getD_set_self _ _ _ _ hSlt2]
    · unfold nameOf
      rw [hs3arena, getD_set_ne _ _ _ _ _ hx]
  have hrels3S : relsOf s3 S = ⟨rel.take (REL_LEN - 1), T⟩ :: relsOf s2 S := by
    unfold relsOf
    rw [hs3arena, getD_set_self _ _ _ _ hSlt2]
  have hrels3ne : ∀ x, x ≠ S → relsOf s3 x = relsOf s2 x := by
    intro x hx
    unfold relsOf
    rw [hs3arena, getD_set_ne _ _ _ _ _ hx]
  refine ⟨⟨⟨?_, ?_, ?_, ?_, ?_⟩, ?_, ?_, ?_⟩, ?_, by rw [hs3len]; omega, ?_⟩
  · rw [hs3buckets]; exact hblen2
  · rw [hiter3]; exact hnd2
  · intro j hj
    rw [hiter3] at hj
    rw [hs3len]
    exact hinr2 j hj
  · intro j hj
    rw [hiter3]
    rw [hs3len] at hj
    exact hcomp2 j hj
  · intro b hb id' hid'
    rw [hs3buckets] at hid'
    rw [hname3 id']
    exact hplaced2 b hb id' hid'
  · intro j hj r hr
    rw [hiter3] at hj
    rw [hs3len]
    by_cases hjS : j = S
    · subst hjS
      rw [hrels3S] at hr
      rcases List.mem_cons.mp hr with rfl | hold
      · exact hTlt2
      · exact htgt2 S hj r hold
    · rw [hrels3ne j hjS] at hr
      exact htgt2 j hj r hr
  · intro j hj
    rw [hiter3] at hj
    rw [hname3 j]
    exact hnames2 j hj
  · intro i hi j hj heq
    rw [hiter3] at hi hj
    rw [hname3 i, hname3 j] at heq
    exact huniq2 i hi j hj heq
  · have hperm3 : List.Perm (triplesOf s3)
        ((src, rel.take (REL_LEN - 1), tgt) :: triplesOf s2) := by
      unfold triplesOf
      rw [hiter3]
      refine flatMap_update_single (iterIds s2) _ _ S _ hnd2 hSmem2 ?_ ?_
      · intro j hj hne
        rw [hrels3ne j hne]
        refine List.map_congr_left (fun r hr => ?_)
        rw [hname3 j, hname3 r.target]
      · rw [hrels3S, List.map_cons, hname3 S, hSname2, hname3 T, hTname2]
        have htail : List.map (fun r => (src, r.rel, nameOf s3 r.target)) (relsOf s2 S) =
            List.map (fun r => (src, r.rel, nameOf s2 r.target)) (relsOf s2 S) :=
          List.map_congr_left (fun r _ => by rw [hname3 r.target])
        rw [htail]
    exact hperm3.trans ((htrip2.trans htrip1).cons _)
  · intro j hj
    rw [hiter3]
    exact hmemmono2 j (hmemmono1 j hj)

/-! ## The public operations and their invariant -/

theorem norm_take_length_le (x : Str) (n : Nat) : (normalize (x.take n)).length ≤ n :=
  le_trans (normalize_length_le _) (by simpa using List.length_take_le n x)

theorem normalize_ne_nil_of_self (x y : Str) (hx : x = normalize y) (hne : x ≠ []) :
    normalize x ≠ [] := by
  rw [hx]
  exact normalize_normalize_ne_nil y (by rw [← hx]; exact hne)

/-- Operation inputs below the truncation capacity: a manual entity
name that normalizes to at most 127 bytes (shorter inputs always
satisfy this; the relationship dialog's 128-byte read buffers enforce
it automatically), and import lines whose parsed source and target are
not blank (a target segment longer than 127 bytes consisting of blanks
before the truncation point would produce an empty name). -/
def op_ok (op : Op) : Bool :=
  match op with
  | .addEntity raw => decide ((normalize (raw.take (LINE_BUF - 1))).length ≤ NAME_LEN - 1)
  | .addRel _ _ _ => true
  | .load lines => lines.all (fun l =>
      match parse_relation_line (trim l) with
      | some t => !(t.1 == []) && !(t.2.2 == [])
      | none => true)

/-- Folding `add_relationship` over a list of well-sized triples keeps
the state well-formed and appends exactly those triples (as a
multiset). -/
theorem fold_add_spec (ts : List (Str × Str × Str)) (s0 : GState) (hOK : StateOK s0)
    (hts : ∀ t ∈ ts, t.1.length ≤ NAME_LEN - 1 ∧ t.2.1.length ≤ REL_LEN - 1 ∧
      t.2.2.length ≤ NAME_LEN - 1 ∧ normalize t.1 ≠ [] ∧ normalize t.2.2 ≠ []) :
    StateOK (ts.foldl (fun st t => add_relationship st t.1 t.2.1 t.2.2) s0) ∧
    List.Perm (triplesOf (ts.foldl (fun st t => add_relationship st t.1 t.2.1 t.2.2) s0))
      (ts ++ triplesOf s0) := by
  induction ts generalizing s0 with
  | nil => exact ⟨hOK, by simp⟩
  | cons t rest ih =>
    obtain ⟨h1, h2, h3, h4, h5⟩ := hts t (by simp)
    obtain ⟨hOK', hperm', -, -⟩ :=
      add_relationship_spec s0 t.1 t.2.1 t.2.2 hOK h1 h3 h4 h5
    have htake : t.2.1.take (REL_LEN - 1) = t.2.1 := List.take_of_length_le h2
    rw [htake] at hperm'
    obtain ⟨ihOK, ihperm⟩ := ih (add_relationship s0 t.1 t.2.1 t.2.2) hOK'
      (fun u hu => hts u (by simp [hu]))
    refine ⟨by simpa using ihOK, ?_⟩
    simp only [List.foldl_cons]
    exact ihperm.trans ((hperm'.append_left rest).trans List.perm_middle)

/-- Every triple produced by the import parser is within capacity; its
source and target are non-blank when the `op_ok` condition holds for
the file. -/
theorem import_triples_sized (lines : List Str)
    (hop : lines.all (fun l =>
      match parse_relation_line (trim l) with
      | some t => !(t.1 == []) && !(t.2.2 == [])
      | none => true) = true) :
    ∀ t ∈ import_triples lines, t.1.length ≤ NAME_LEN - 1 ∧ t.2.1.length ≤ REL_LEN - 1 ∧
      t.2.2.length ≤ NAME_LEN - 1 ∧ normalize t.1 ≠ [] ∧ normalize t.2.2 ≠ [] := by
  intro t ht
  obtain ⟨l, hl, hfl⟩ := List.mem_filterMap.mp ht
  by_cases hd : is_data_line l
  · rw [if_pos hd] at hfl
    obtain ⟨a, r, b, -, -, -, -, -, -, hteq⟩ :=
      parse_relation_line_decompose (trim l) t hfl
    have hcomp := List.all_eq_true.mp hop l hl
    rw [hfl] at hcomp
    simp only [Bool.and_eq_true, Bool.not_eq_eq_eq_not, Bool.not_true, beq_eq_false_iff_ne,
      ne_eq] at hcomp
    subst hteq
    refine ⟨norm_take_length_le _ _, norm_take_length_le _ _, norm_take_length_le _ _, ?_, ?_⟩
    · exact normalize_ne_nil_of_self _ _ rfl hcomp.1
    · exact normalize_ne_nil_of_self _ _ rfl hcomp.2
  · rw [if_neg hd] at hfl
    exact absurd hfl (by simp)

theorem apply_op_stateOK (s : GState) (op : Op) (hOK : StateOK s)
    (hop : op_ok op = true) : StateOK (apply_op s op) := by
  cases op with
  | addEntity raw =>
    simp only [apply_op]
    by_cases hnm : normalize (raw.take (LINE_BUF - 1)) = []
    · rw [if_pos hnm]; exact hOK
    · rw [if_neg hnm]
      cases hfind : find_entity_exact s (normalize (raw.take (LINE_BUF - 1))) with
      | some e => exact hOK
      | none =>
        have hlen : (normalize (raw.take (LINE_BUF - 1))).length ≤ NAME_LEN - 1 := by
          simpa [op_ok] using hop
        exact (create_entity_spec s _ hOK hlen
          (normalize_ne_nil_of_self _ _ rfl hnm) hfind).1
  | addRel src rel tgt =>
    simp only [apply_op]
    by_cases hempty : normalize (src.take (NAME_LEN - 1)) = [] ∨
        normalize (rel.take (REL_LEN - 1)) = [] ∨ normalize (tgt.take (NAME_LEN - 1)) = []
    · rw [if_pos hempty]; exact hOK
    · rw [if_neg hempty]
      push_neg at hempty
      exact (add_relationship_spec s _ _ _ hOK (norm_take_length_le _ _)
        (norm_take_length_le _ _)
        (normalize_ne_nil_of_self _ _ rfl hempty.1)
        (normalize_ne_nil_of_self _ _ rfl hempty.2.2)).1
  | load lines =>
    simp only [apply_op]
    rw [load_from_file_spec]
    exact (fold_add_spec (import_triples lines) s hOK
      (import_triples_sized lines (by simpa [op_ok] using hop))).1

theorem run_ops_stateOK (ops : List Op) (hops : ∀ op ∈ ops, op_ok op = true) :
    StateOK (run_ops ops) := by
  suffices h : ∀ s, StateOK s → StateOK (ops.foldl apply_op s) from
    h emptyState stateOK_empty
  induction ops with
  | nil => exact fun s hs => hs
  | cons op rest ih =>
    intro s hs
    exact ih (fun o ho => hops o (by simp [ho])) _
      (apply_op_stateOK s op hs (hops op (by simp)))

/-- Claim C4, counterexample: adding the same 128-byte entity name
twice through the public add-entity operation creates two live entities
with the identical (truncated) case-sensitive name, violating the
claimed uniqueness invariant on a reachable state. -/
theorem reachable_duplicate_name_counterexample :
    ¬(∀ i ∈ iterIds (run_ops [.addEntity (List.replicate NAME_LEN 'a'),
        .addEntity (List.replicate NAME_LEN 'a')]),
      ∀ j ∈ iterIds (run_ops [.addEntity (List.replicate NAME_LEN 'a'),
        .addEntity (List.replicate NAME_LEN 'a')]),
      nameOf (run_ops [.addEntity (List.replicate NAME_LEN 'a'),
        .addEntity (List.replicate NAME_LEN 'a')]) i =
        nameOf (run_ops [.addEntity (List.replicate NAME_LEN 'a'),
          .addEntity (List.replicate NAME_LEN 'a')]) j → i = j) := by
  decide

/-- Claim C4, amended: in every state reachable through the public
operations whose inputs stay below the 128-byte truncation capacity
(`op_ok`: manual entity names normalize to at most 127 bytes, imported
source/target segments are not blank after truncation), every
relationship target is a live entity of the index, no two live entities
share the identical case-sensitive name, and no entity's name is empty
after normalization. -/
theorem reachable_invariant (ops : List Op) (hops : ∀ op ∈ ops, op_ok op = true) :
    (∀ id ∈ iterIds (run_ops ops), ∀ r ∈ relsOf (run_ops ops) id,
      r.target ∈ iterIds (run_ops ops)) ∧
    (∀ i ∈ iterIds (run_ops ops), ∀ j ∈ iterIds (run_ops ops),
      nameOf (run_ops ops) i = nameOf (run_ops ops) j → i = j) ∧
    (∀ id ∈ iterIds (run_ops ops), normalize (nameOf (run_ops ops) id) ≠ []) := by
  obtain ⟨⟨hblen, hnd, hinr, hcomp, hplaced⟩, htgt, hnames, huniq⟩ := run_ops_stateOK ops hops
  exact ⟨fun id hid r hr => hcomp _ (htgt id hid r hr), huniq,
    fun id hid => (hnames id hid).2⟩

/-- Witness for `reachable_invariant` on a concrete session using all
three public operations. -/
theorem reachable_invariant_witness :
    (∀ op ∈ [Op.addEntity "Alice".toList,
        Op.addRel "Alice".toList "knows".toList "Bob".toList,
        Op.load ["Bob|met|Carol".toList]], op_ok op = true) ∧
    (∀ i ∈ iterIds (run_ops [Op.addEntity "Alice".toList,
        Op.addRel "Alice".toList "knows".toList "Bob".toList,
        Op.load ["Bob|met|Carol".toList]]),
      ∀ j ∈ iterIds (run_ops [Op.addEntity "Alice".toList,
        Op.addRel "Alice".toList "knows".toList "Bob".toList,
        Op.load ["Bob|met|Carol".toList]]),
      nameOf (run_ops [Op.addEntity "Alice".toList,
        Op.addRel "Alice".toList "knows".toList "Bob".toList,
        Op.load ["Bob|met|Carol".toList]]) i =
        nameOf (run_ops [Op.addEntity "Alice".toList,
          Op.addRel "Alice".toList "knows".toList "Bob".toList,
          Op.load ["Bob|met|Carol".toList]]) j → i = j) :=
  ⟨by decide, (reachable_invariant _ (by decide)).2.1⟩

/-! ## Round trip of save and load -/

/-- Conditions under which a graph survives the text round trip: every
saved triple's fields are within buffer capacity, non-empty, free of
the delimiter, already normalized, and the source name does not start
with the comment marker. -/
def SaveOK (s : GState) : Prop :=
  ∀ t ∈ triplesOf s,
    (t.1.length ≤ NAME_LEN - 1 ∧ t.1 ≠ [] ∧ '|' ∉ t.1 ∧ t.1.head? ≠ some '#' ∧
      normalize t.1 = t.1) ∧
    (t.2.1.length ≤ REL_LEN - 1 ∧ t.2.1 ≠ [] ∧ '|' ∉ t.2.1 ∧ normalize t.2.1 = t.2.1) ∧
    (t.2.2.length ≤ NAME_LEN - 1 ∧ t.2.2 ≠ [] ∧ '|' ∉ t.2.2 ∧ normalize t.2.2 = t.2.2)

instance (s : GState) : Decidable (SaveOK s) := by
  unfold SaveOK
  infer_instance

/-- A saved line built from a round-trip-safe triple is accepted by
the import loop and parses back to exactly that triple. -/
theorem save_line_parses (a r b : Str)
    (ha : a.length ≤ NAME_LEN - 1 ∧ a ≠ [] ∧ '|' ∉ a ∧ a.head? ≠ some '#' ∧
      normalize a = a)
    (hr : r.length ≤ REL_LEN - 1 ∧ r ≠ [] ∧ '|' ∉ r ∧ normalize r = r)
    (hb : b.length ≤ NAME_LEN - 1 ∧ b ≠ [] ∧ '|' ∉ b ∧ normalize b = b) :
    (if is_data_line (a ++ '|' :: (r ++ '|' :: b)) then
      parse_relation_line (trim (a ++ '|' :: (r ++ '|' :: b))) else none) = some (a, r, b) := by
  obtain ⟨halen, hane, habar, hahash, hafix⟩ := ha
  obtain ⟨hrlen, hrne, hrbar, hrfix⟩ := hr
  obtain ⟨hblen, hbne, hbbar, hbfix⟩ := hb
  obtain ⟨c, a2, hca⟩ := List.exists_cons_of_ne_nil hane
  have hhead : (a ++ '|' :: (r ++ '|' :: b)).head? = some c := by
    rw [hca]
    rfl
  have hcns : ¬isSpace c :=
    (normalize_fixed_ends a hafix hane).1 c (by rw [hca]; rfl)
  have hlast : (a ++ '|' :: (r ++ '|' :: b)).getLast? = b.getLast? := by
    rw [List.getLast?_append_of_ne_nil _ (by simp)]
    rw [show ('|' :: (r ++ '|' :: b)) = ['|'] ++ (r ++ '|' :: b) from rfl]
    rw [List.getLast?_append_of_ne_nil _ (by simp)]
    rw [List.getLast?_append_of_ne_nil _ (by simp)]
    rw [show ('|' :: b) = ['|'] ++ b from rfl]
    rw [List.getLast?_append_of_ne_nil _ hbne]
  have htrim : trim (a ++ '|' :: (r ++ '|' :: b)) = a ++ '|' :: (r ++ '|' :: b) := by
    refine trim_eq_self_of_ends _ ?_ ?_
    · intro d hd
      rw [hhead] at hd
      injection hd with hd
      rw [← hd]
      exact hcns
    · intro d hd
      rw [hlast] at hd
      exact (normalize_fixed_ends b hbfix hbne).2 d hd
  have hchash : c ≠ '#' := by
    intro hc
    exact hahash (by rw [hca, hc]; rfl)
  have hdata : is_data_line (a ++ '|' :: (r ++ '|' :: b)) = true := by
    unfold is_data_line
    rw [htrim]
    have h1 : (a ++ '|' :: (r ++ '|' :: b)) ≠ [] := by
      rw [hca]
      simp
    have h2 : (a ++ '|' :: (r ++ '|' :: b)).head? ≠ some '#' := by
      rw [hhead]
      simp [hchash]
    simp only [Bool.and_eq_true, Bool.not_eq_eq_eq_not, Bool.not_true, beq_eq_false_iff_ne]
    exact ⟨h1, h2⟩
  rw [if_pos hdata, htrim, parse_relation_line_app a r b habar hrbar hane hrne hbne,
    take_of_le_name_len a halen, List.take_of_length_le hrlen,
    take_of_le_name_len b hblen, hafix, hrfix, hbfix]

/-- Re-importing the saved lines of a round-trip-safe graph parses back
exactly its triple list. -/
theorem import_triples_save (s : GState) (hsave : SaveOK s) :
    import_triples (save_to_file s) = triplesOf s := by
  have key : ∀ ts : List (Str × Str × Str),
      (∀ t ∈ ts,
        (t.1.length ≤ NAME_LEN - 1 ∧ t.1 ≠ [] ∧ '|' ∉ t.1 ∧ t.1.head? ≠ some '#' ∧
          normalize t.1 = t.1) ∧
        (t.2.1.length ≤ REL_LEN - 1 ∧ t.2.1 ≠ [] ∧ '|' ∉ t.2.1 ∧ normalize t.2.1 = t.2.1) ∧
        (t.2.2.length ≤ NAME_LEN - 1 ∧ t.2.2 ≠ [] ∧ '|' ∉ t.2.2 ∧
          normalize t.2.2 = t.2.2)) →
      ts.filterMap (fun t =>
        if is_data_line (t.1 ++ '|' :: (t.2.1 ++ '|' :: t.2.2)) then
          parse_relation_line (trim (t.1 ++ '|' :: (t.2.1 ++ '|' :: t.2.2))) else none) = ts := by
    intro ts hts
    induction ts with
    | nil => rfl
    | cons t rest ih =>
      obtain ⟨h1, h2, h3⟩ := hts t (by simp)
      rw [List.filterMap_cons, save_line_parses t.1 t.2.1 t.2.2 h1 h2 h3]
      rw [ih (fun u hu => hts u (by simp [hu]))]
  unfold import_triples save_to_file
  rw [List.filterMap_map]
  have := key (triplesOf s) hsave
  simpa [Function.comp] using this

/-- Claim C6, amended: for every graph whose saved triples are within
buffer capacity, non-empty, delimiter-free, already normalized, and
whose source names do not begin with the comment marker, exporting with
`save_to_file` and re-importing the text into a fresh empty index
reproduces the same multiset (hence the same set) of
(source, label, target) triples. -/
theorem save_load_round_trip (s : GState) (hsave : SaveOK s) :
    List.Perm (triplesOf (load_from_file emptyState (save_to_file s)).1) (triplesOf s) := by
  have h1 : (load_from_file emptyState (save_to_file s)).1 =
      (import_triples (save_to_file s)).foldl
        (fun st t => add_relationship st t.1 t.2.1 t.2.2) emptyState := by
    rw [load_from_file_spec]
  rw [h1, import_triples_save s hsave]
  have hfold := (fold_add_spec (triplesOf s) emptyState stateOK_empty ?_).2
  · have hempty : triplesOf emptyState = [] := by decide
    simpa [hempty] using hfold
  · intro t ht
    obtain ⟨⟨l1, n1, -, -, f1⟩, ⟨l2, -, -, -⟩, ⟨l3, n3, -, f3⟩⟩ := hsave t ht
    exact ⟨l1, l2, l3, by rw [f1]; exact n1, by rw [f3]; exact n3⟩

/-- Claim C6, counterexample: the graph with the single triple
(a, empty label, b) satisfies the claim's hypothesis (no name or label
contains the delimiter), but its save file is the line `a||b`, which
the import rejects (zero-length middle segment), so re-importing
reproduces the empty edge set, not the original one. -/
theorem save_load_counterexample :
    (∀ t ∈ triplesOf (add_relationship emptyState ['a'] [] ['b']),
      '|' ∉ t.1 ∧ '|' ∉ t.2.1 ∧ '|' ∉ t.2.2) ∧
    triplesOf (add_relationship emptyState ['a'] [] ['b']) = [(['a'], [], ['b'])] ∧
    save_to_file (add_relationship emptyState ['a'] [] ['b']) = [['a', '|', '|', 'b']] ∧
    triplesOf (load_from_file emptyState
      (save_to_file (add_relationship emptyState ['a'] [] ['b']))).1 = [] := by
  refine ⟨by decide, by decide, by decide, by decide⟩

/-- Witness for `save_load_round_trip` on the three-edge example
graph. -/
theorem save_load_round_trip_witness :
    SaveOK exampleGraph ∧
    List.Perm (triplesOf (load_from_file emptyState (save_to_file exampleGraph)).1)
      (triplesOf exampleGraph) :=
  ⟨by decide, save_load_round_trip exampleGraph (by decide)⟩

/-! ## BFS shortest-path correctness -/

/-- Existence of a directed walk of exactly `k` edge hops from `src`. -/
inductive HasHops (succs : Nat → List Nat) (src : Nat) : Nat → Nat → Prop where
  | refl : HasHops succs src src 0
  | snoc {u v k : Nat} : HasHops succs src u k → v ∈ succs u → HasHops succs src v (k + 1)

/-- A non-empty vertex list forming a directed path from `a` to `b`. -/
def IsPathList (succs : Nat → List Nat) (a b : Nat) (p : List Nat) : Prop :=
  p.head? = some a ∧ p.getLast? = some b ∧ List.Chain' (fun u v => v ∈ succs u) p

theorem hasHops_toPath (succs : Nat → List Nat) (src v k : Nat)
    (h : HasHops succs src v k) :
    ∃ p, IsPathList succs src v p ∧ p.length = k + 1 := by
  induction h with
  | refl => exact ⟨[src], ⟨rfl, rfl, List.chain'_singleton src⟩, rfl⟩
  | snoc hwalk hedge ih =>
    rename_i u w j
    obtain ⟨p, ⟨hhead, hlast, hchain⟩, hlen⟩ := ih
    have hpne : p ≠ [] := by
      intro hnil
      rw [hnil] at hhead
      exact absurd hhead (by simp)
    refine ⟨p ++ [w], ⟨?_, List.getLast?_concat p, ?_⟩, by simp [hlen]⟩
    · obtain ⟨x, rest, hx⟩ := List.exists_cons_of_ne_nil hpne
      rw [hx] at hhead ⊢
      simpa using hhead
    · rw [List.chain'_append]
      refine ⟨hchain, List.chain'_singleton w, ?_⟩
      intro x hx y hy
      rw [hlast] at hx
      injection hx with hx
      simp only [List.head?_cons, Option.mem_def, Option.some.injEq] at hy
      rw [← hx, ← hy]
      exact hedge

theorem pathList_toHops (succs : Nat → List Nat) :
    ∀ p a b, IsPathList succs a b p → HasHops succs a b (p.length - 1) := by
  intro p
  induction p using List.reverseRecOn with
  | nil =>
    intro a b ⟨hhead, _, _⟩
    exact absurd hhead (by simp)
  | append_singleton q v ih =>
    intro a b ⟨hhead, hlast, hchain⟩
    have hb : b = v := by
      rw [List.getLast?_concat] at hlast
      injection hlast with h
      exact h.symm
    rw [hb]
    cases hql : q.getLast? with
    | none =>
      have hq : q = [] := by rwa [List.getLast?_eq_none_iff] at hql
      rw [hq] at hhead
      simp only [List.nil_append, List.head?_cons] at hhead
      injection hhead with ha
      rw [hq]
      simp only [List.nil_append, List.length_cons, List.length_nil]
      rw [← ha]
      exact HasHops.refl
    | some u =>
      have hqne : q ≠ [] := by
        intro h
        rw [h] at hql
        exact absurd hql (by simp)
      have hheadq : q.head? = some a := by
        obtain ⟨x, rest, hx⟩ := List.exists_cons_of_ne_nil hqne
        rw [hx] at hhead ⊢
        simpa using hhead
      obtain ⟨hchainq, -, hcross⟩ := List.chain'_append.mp hchain
      have hedge : v ∈ succs u := hcross u (by rw [hql]; rfl) v rfl
      have hrec := (ih a u ⟨hheadq, hql, hchainq⟩).snoc hedge
      have hlen : (q ++ [v]).length - 1 = q.length - 1 + 1 := by
        have hpos : 0 < q.length := List.length_pos.mpr hqne
        simp only [List.length_append, List.length_cons, List.length_nil]
        omega
      rw [hlen]
      exact hrec

/-- Number of ids below `n` not yet marked visited — together with the
queue length this bounds the remaining BFS iterations. -/
def unvisited_count (n : Nat) (vis : List Nat) : Nat :=
  ((List.range n).filter (fun x => !vis.contains x)).length

theorem unvisited_count_le (n : Nat) (vis : List Nat) : unvisited_count n vis ≤ n := by
  unfold unvisited_count
  calc ((List.range n).filter (fun x => !vis.contains x)).length
      ≤ (List.range n).length := (List.filter_sublist _).length_le
    _ = n := List.length_range n

theorem unvisited_count_cons (n t : Nat) (vis : List Nat) (ht : t < n) (hnv : t ∉ vis) :
    unvisited_count n (t :: vis) + 1 = unvisited_count n vis := by
  unfold unvisited_count
  have h1 : (List.range n).filter (fun x => !(t :: vis).contains x) =
      ((List.range n).filter (fun x => !vis.contains x)).filter (fun x => x != t) := by
    rw [List.filter_filter]
    refine List.filter_congr (fun x _ => ?_)
    simp only [List.contains_cons, Bool.not_or, Bool.and_comm]
    rfl
  have hnd : ((List.range n).filter (fun x => !vis.contains x)).Nodup :=
    (List.nodup_range n).filter _
  have hmem : t ∈ (List.range n).filter (fun x => !vis.contains x) := by
    rw [List.mem_filter]
    exact ⟨List.mem_range.mpr ht, by simpa using hnv⟩
  have h2 : ((List.range n).filter (fun x => !vis.contains x)).filter (fun x => x != t) =
      ((List.range n).filter (fun x => !vis.contains x)).erase t :=
    (hnd.erase_eq_filter t).symm
  rw [h1, h2, List.length_erase_of_mem hmem]
  have : 0 < ((List.range n).filter (fun x => !vis.contains x)).length :=
    List.length_pos.mpr (fun hnil => by rw [hnil] at hmem; exact absurd hmem (by simp))
  omega

/-- The loop invariant of the BFS queue of `find_path_bfs`.  `q` is the
pending part of the queue, `V` the visited set, `P` the predecessor
map, and `d` a ghost labelling equal to the true hop distance from the
source for every visited entity. -/
structure BfsInv (succs : Nat → List Nat) (n src tgt : Nat) (q V : List Nat)
    (P : Nat → Option Nat) (d : Nat → Nat) : Prop where
  qnd : q.Nodup
  qsub : ∀ x ∈ q, x ∈ V
  vnd : V.Nodup
  vrange : ∀ v ∈ V, v < n
  srcV : src ∈ V
  srcP : P src = none
  srcd : d src = 0
  upper : ∀ v ∈ V, HasHops succs src v (d v)
  lower : ∀ v ∈ V, ∀ j, HasHops succs src v j → d v ≤ j
  chain : ∀ v ∈ V, v ≠ src → ∃ u, P v = some u ∧ u ∈ V ∧ v ∈ succs u ∧ d v = d u + 1
  sorted : List.Pairwise (fun a b => d a ≤ d b) q
  bound : ∀ a, q.head? = some a → ∀ x ∈ q, d x ≤ d a + 1
  expanded : ∀ u ∈ V, u ∉ q → ∀ w ∈ succs u, w ∈ V
  far : ∀ w, w ∉ V → ∀ j, HasHops succs src w j → ∃ a, q.head? = some a ∧ d a + 1 ≤ j
  tgtq : tgt ∈ V → tgt ∈ q

theorem enqueue_all_cons (cur t : Nat) (ts q vis : List Nat) (p : Nat → Option Nat) :
    enqueue_all cur (t :: ts) q vis p =
      if t ∈ vis then enqueue_all cur ts q vis p
      else enqueue_all cur ts (q ++ [t]) (t :: vis)
        (fun x => if x = t then some cur else p x) := rfl

/-- Characterization of the BFS edge loop `enqueue_all`: it appends the
previously unvisited successors (in order, without duplicates) to the
queue, marks exactly them, and points their predecessors at `cur`. -/
theorem enqueue_all_spec (cur : Nat) :
    ∀ (ts q vis : List Nat) (p : Nat → Option Nat),
    ∃ news : List Nat,
      (enqueue_all cur ts q vis p).1 = q ++ news ∧
      (enqueue_all cur ts q vis p).2.1 = news.reverse ++ vis ∧
      news.Nodup ∧
      (∀ t ∈ news, t ∈ ts ∧ t ∉ vis) ∧
      (∀ t ∈ ts, t ∈ news ∨ t ∈ vis) ∧
      (∀ x ∈ news, (enqueue_all cur ts q vis p).2.2 x = some cur) ∧
      (∀ x, x ∉ news → (enqueue_all cur ts q vis p).2.2 x = p x) := by
  intro ts
  induction ts with
  | nil =>
    intro q vis p
    exact ⟨[], by simp [enqueue_all], by simp [enqueue_all], List.nodup_nil,
      by simp, by simp, by simp, fun x _ => rfl⟩
  | cons t ts' ih =>
    intro q vis p
    by_cases htv : t ∈ vis
    · obtain ⟨news, h1, h2, h3, h4, h5, h6, h7⟩ := ih q vis p
      have heq : enqueue_all cur (t :: ts') q vis p = enqueue_all cur ts' q vis p := by
        rw [enqueue_all_cons, if_pos htv]
      rw [heq]
      refine ⟨news, h1, h2, h3, ?_, ?_, h6, h7⟩
      · exact fun u hu => ⟨by simp [(h4 u hu).1], (h4 u hu).2⟩
      · intro u hu
        rcases List.mem_cons.mp hu with rfl | hu'
        · exact Or.inr htv
        · exact h5 u hu'
    · obtain ⟨news, h1, h2, h3, h4, h5, h6, h7⟩ :=
        ih (q ++ [t]) (t :: vis) (fun x => if x = t then some cur else p x)
      have heq : enqueue_all cur (t :: ts') q vis p =
          enqueue_all cur ts' (q ++ [t]) (t :: vis) (fun x => if x = t then some cur else p x) := by
        rw [enqueue_all_cons, if_neg htv]
      rw [heq]
      have htnews : t ∉ news := fun ht => (h4 t ht).2 (by simp)
      refine ⟨t :: news, ?_, ?_, ?_, ?_, ?_, ?_, ?_⟩
      · rw [h1, List.append_assoc]
        rfl
      · rw [h2]
        simp
      · exact List.nodup_cons.mpr ⟨htnews, h3⟩
      · intro u hu
        rcases List.mem_cons.mp hu with rfl | hu'
        · exact ⟨by simp, htv⟩
        · refine ⟨by simp [(h4 u hu').1], fun hv => (h4 u hu').2 (by simp [hv])⟩
      · intro u hu
        rcases List.mem_cons.mp hu with rfl | hu'
        · exact Or.inl (by simp)
        · rcases h5 u hu' with h | h
          · exact Or.inl (by simp [h])
          · rcases List.mem_cons.mp h with rfl | h'
            · exact Or.inl (by simp)
            · exact Or.inr h'
      · intro x hx
        rcases List.mem_cons.mp hx with rfl | hx'
        · rw [h7 x htnews]
          simp
        · exact h6 x hx'
      · intro x hx
        rw [h7 x (fun hx' => hx (by simp [hx']))]
        rw [if_neg (fun hx' => hx (by simp [hx']))]

/-- `enqueue_all` preserves the termination measure: each marked
successor adds one queue slot and removes one unvisited id. -/
theorem enqueue_all_measure (n cur : Nat) :
    ∀ (ts q vis : List Nat) (p : Nat → Option Nat), (∀ t ∈ ts, t < n) →
    (enqueue_all cur ts q vis p).1.length +
      unvisited_count n (enqueue_all cur ts q vis p).2.1 =
    q.length + unvisited_count n vis := by
  intro ts
  induction ts with
  | nil => intro q vis p _; rfl
  | cons t ts' ih =>
    intro q vis p hts
    by_cases htv : t ∈ vis
    · have heq : enqueue_all cur (t :: ts') q vis p = enqueue_all cur ts' q vis p := by
        rw [enqueue_all_cons, if_pos htv]
      rw [heq]
      exact ih q vis p (fun u hu => hts u (by simp [hu]))
    · have heq : enqueue_all cur (t :: ts') q vis p =
          enqueue_all cur ts' (q ++ [t]) (t :: vis) (fun x => if x = t then some cur else p x) := by
        rw [enqueue_all_cons, if_neg htv]
      rw [heq]
      rw [ih (q ++ [t]) (t :: vis) _ (fun u hu => hts u (by simp [hu]))]
      have := unvisited_count_cons n t vis (hts t (by simp)) htv
      simp only [List.length_append, List.length_cons, List.length_nil]
      omega

theorem head?_pairwise_le (f : Nat → Nat) (q : List Nat) (a x : Nat)
    (hp : List.Pairwise (fun u v => f u ≤ f v) q) (ha : q.head? = some a) (hx : x ∈ q) :
    f a ≤ f x := by
  cases q with
  | nil => exact absurd ha (by simp)
  | cons b l =>
    injection ha with hab
    subst hab
    rcases List.mem_cons.mp hx with rfl | hxl
    · exact le_refl _
    · exact (List.pairwise_cons.mp hp).1 x hxl

/-- One BFS iteration (dequeue `cur ≠ tgt` and expand it) preserves the
loop invariant, for a suitable extension of the ghost distance map. -/
theorem bfsInv_step (succs : Nat → List Nat) (n src tgt : Nat)
    (hS : ∀ u, u < n → ∀ t ∈ succs u, t < n)
    (cur : Nat) (rest V : List Nat) (P : Nat → Option Nat) (d : Nat → Nat)
    (hinv : BfsInv succs n src tgt (cur :: rest) V P d) (hne : cur ≠ tgt) :
    ∃ d', BfsInv succs n src tgt (enqueue_all cur (succs cur) rest V P).1
      (enqueue_all cur (succs cur) rest V P).2.1
      (enqueue_all cur (succs cur) rest V P).2.2 d' := by
  obtain ⟨news, hq', hv', hnewsnd, hnewsmem, hcover, hP1, hP2⟩ :=
    enqueue_all_spec cur (succs cur) rest V P
  set Q' := (enqueue_all cur (succs cur) rest V P).1 with hQeq
  set V' := (enqueue_all cur (succs cur) rest V P).2.1 with hVeq
  set P' := (enqueue_all cur (succs cur) rest V P).2.2 with hPeq
  set d' : Nat → Nat := fun x => if x ∈ news then d cur + 1 else d x with hdeq
  have hcurV : cur ∈ V := hinv.qsub cur (by simp)
  have hcurn : cur < n := hinv.vrange cur hcurV
  have hcurnews : cur ∉ news := fun h => (hnewsmem cur h).2 hcurV
  have hmemV' : ∀ x, x ∈ V' ↔ x ∈ news ∨ x ∈ V := by
    intro x
    rw [hv']
    simp
  have hrestV : ∀ x ∈ rest, x ∈ V := fun x hx => hinv.qsub x (by simp [hx])
  have hrestnews : ∀ x ∈ rest, x ∉ news :=
    fun x hx h => (hnewsmem x h).2 (hrestV x hx)
  have hdnews : ∀ x ∈ news, d' x = d cur + 1 := by
    intro x hx
    rw [hdeq]
    simp [hx]
  have hdold : ∀ x, x ∉ news → d' x = d x := by
    intro x hx
    rw [hdeq]
    simp [hx]
  have hdV : ∀ x ∈ V, d' x = d x := fun x hx => hdold x (fun h => (hnewsmem x h).2 hx)
  have hsrcnews : src ∉ news := fun h => (hnewsmem src h).2 hinv.srcV
  have hrestd : ∀ x ∈ rest, d cur ≤ d x :=
    fun x hx => (List.pairwise_cons.mp hinv.sorted).1 x hx
  have hrestbound : ∀ x ∈ rest, d x ≤ d cur + 1 :=
    fun x hx => hinv.bound cur rfl x (by simp [hx])
  -- the individual invariant clauses of the successor state
  have hqnd' : Q'.Nodup := by
    rw [hq', List.nodup_append]
    exact ⟨(List.nodup_cons.mp hinv.qnd).2, hnewsnd,
      fun x hx hx' => (hnewsmem x hx').2 (hrestV x hx)⟩
  have hqsub' : ∀ x ∈ Q', x ∈ V' := by
    intro x hx
    rw [hq', List.mem_append] at hx
    rcases hx with hx | hx
    · exact (hmemV' x).mpr (Or.inr (hrestV x hx))
    · exact (hmemV' x).mpr (Or.inl hx)
  have hvnd' : V'.Nodup := by
    rw [hv', List.nodup_append]
    exact ⟨List.nodup_reverse.mpr hnewsnd, hinv.vnd,
      fun x hx hx' => (hnewsmem x (List.mem_reverse.mp hx)).2 hx'⟩
  have hvrange' : ∀ v ∈ V', v < n := by
    intro v hv
    rcases (hmemV' v).mp hv with hv | hv
    · exact hS cur hcurn v (hnewsmem v hv).1
    · exact hinv.vrange v hv
  have hsrcV' : src ∈ V' := (hmemV' src).mpr (Or.inr hinv.srcV)
  have hsrcP' : P' src = none := by
    rw [hP2 src hsrcnews]
    exact hinv.srcP
  have hsrcd' : d' src = 0 := by
    rw [hdold src hsrcnews]
    exact hinv.srcd
  have hupper' : ∀ v ∈ V', HasHops succs src v (d' v) := by
    intro v hv
    rcases (hmemV' v).mp hv with hv | hv
    · rw [hdnews v hv]
      exact (hinv.upper cur hcurV).snoc (hnewsmem v hv).1
    · rw [hdV v hv]
      exact hinv.upper v hv
  have hlower' : ∀ v ∈ V', ∀ j, HasHops succs src v j → d' v ≤ j := by
    intro v hv j hj
    rcases (hmemV' v).mp hv with hv | hv
    · obtain ⟨a, ha, hle⟩ := hinv.far v (hnewsmem v hv).2 j hj
      injection ha with ha
      rw [hdnews v hv, ha]
      exact hle
    · rw [hdV v hv]
      exact hinv.lower v hv j hj
  have hchain' : ∀ v ∈ V', v ≠ src →
      ∃ u, P' v = some u ∧ u ∈ V' ∧ v ∈ succs u ∧ d' v = d' u + 1 := by
    intro v hv hvsrc
    rcases (hmemV' v).mp hv with hv | hv
    · refine ⟨cur, hP1 v hv, (hmemV' cur).mpr (Or.inr hcurV), (hnewsmem v hv).1, ?_⟩
      rw [hdnews v hv, hdold cur hcurnews]
    · obtain ⟨u, hu1, hu2, hu3, hu4⟩ := hinv.chain v hv hvsrc
      refine ⟨u, ?_, (hmemV' u).mpr (Or.inr hu2), hu3, ?_⟩
      · rw [hP2 v (fun h => (hnewsmem v h).2 hv)]
        exact hu1
      · rw [hdV v hv, hdV u hu2]
        exact hu4
  have hsorted' : List.Pairwise (fun a b => d' a ≤ d' b) Q' := by
    rw [hq', List.pairwise_append]
    refine ⟨?_, ?_, ?_⟩
    · refine ((List.pairwise_cons.mp hinv.sorted).2).imp_of_mem ?_
      intro a b ha hb hab
      rw [hdold a (hrestnews a ha), hdold b (hrestnews b hb)]
      exact hab
    · refine List.pairwise_iff_forall_sublist.mpr ?_
      intro a b hsub
      have ha : a ∈ news := hsub.subset (by simp)
      have hb : b ∈ news := hsub.subset (by simp)
      rw [hdnews a ha, hdnews b hb]
    · intro a ha b hb
      rw [hdold a (hrestnews a ha), hdnews b hb]
      exact hrestbound a ha
  have hbound' : ∀ a, Q'.head? = some a → ∀ x ∈ Q', d' x ≤ d' a + 1 := by
    intro a ha x hx
    rw [hq'] at ha hx
    cases hrest : rest with
    | nil =>
      rw [hrest] at ha hx
      simp only [List.nil_append] at ha hx
      have hanews : a ∈ news := by
        cases hn : news with
        | nil => rw [hn] at ha; exact absurd ha (by simp)
        | cons y l =>
          rw [hn] at ha
          injection ha with ha
          rw [← ha]
          simp
      rw [hdnews a hanews, hdnews x hx]
      omega
    | cons r rest' =>
      rw [hrest] at ha
      simp only [List.cons_append, List.head?_cons] at ha
      injection ha with ha
      have hra : d cur ≤ d a := by
        rw [← ha]
        exact hrestd r (by rw [hrest]; simp)
      have hda : d' a = d a := hdold a (hrestnews a (by rw [hrest, ← ha]; simp))
      rw [List.mem_append] at hx
      rcases hx with hx | hx
      · rw [hdold x (hrestnews x hx), hda]
        have := hrestbound x hx
        omega
      · rw [hdnews x hx, hda]
        omega
  have hexpanded' : ∀ u ∈ V', u ∉ Q' → ∀ w ∈ succs u, w ∈ V' := by
    intro u hu huq w hw
    rcases (hmemV' u).mp hu with hu | hu
    · exact absurd (by rw [hq', List.mem_append]; exact Or.inr hu) huq
    · by_cases hucur : u = cur
      · subst hucur
        rcases hcover w hw with h | h
        · exact (hmemV' w).mpr (Or.inl h)
        · exact (hmemV' w).mpr (Or.inr h)
      · have hunotq : u ∉ cur :: rest := by
          intro h
          rcases List.mem_cons.mp h with rfl | h'
          · exact hucur rfl
          · exact huq (by rw [hq', List.mem_append]; exact Or.inl h')
        exact (hmemV' w).mpr (Or.inr (hinv.expanded u hu hunotq w hw))
  have hfar' : ∀ w, w ∉ V' → ∀ j, HasHops succs src w j →
      ∃ a, Q'.head? = some a ∧ d' a + 1 ≤ j := by
    intro w hw j
    induction j using Nat.strong_induction_on generalizing w with
    | _ j ihj =>
      intro hh
      cases hh with
      | refl => exact absurd hsrcV' hw
      | snoc hu hedge =>
        rename_i u k
        by_cases huV : u ∈ V'
        · by_cases huq : u ∈ Q'
          · obtain ⟨a, ha⟩ : ∃ a, Q'.head? = some a := by
              cases hQ : Q' with
              | nil => rw [hQ] at huq; exact absurd huq (by simp)
              | cons y l => exact ⟨y, rfl⟩
            have hda : d' a ≤ d' u := head?_pairwise_le d' Q' a u hsorted' ha huq
            have hlu : d' u ≤ k := hlower' u huV k hu
            exact ⟨a, ha, by omega⟩
          · exact absurd (hexpanded' u huV huq w hedge) hw
        · obtain ⟨a, ha, hd⟩ := ihj k (by omega) u huV hu
          exact ⟨a, ha, by omega⟩
  have htgtq' : tgt ∈ V' → tgt ∈ Q' := by
    intro h
    rcases (hmemV' tgt).mp h with h | h
    · rw [hq', List.mem_append]
      exact Or.inr h
    · have := hinv.tgtq h
      rcases List.mem_cons.mp this with h' | h'
      · exact absurd h'.symm hne
      · rw [hq', List.mem_append]
        exact Or.inl h'
  exact ⟨d', ⟨hqnd', hqsub', hvnd', hvrange', hsrcV', hsrcP', hsrcd', hupper', hlower',
    hchain', hsorted', hbound', hexpanded', hfar', htgtq'⟩⟩

theorem bfs_loop_cons (succs : Nat → List Nat) (tgt fuel cur : Nat) (rest vis : List Nat)
    (prev : Nat → Option Nat) :
    bfs_loop succs tgt (fuel + 1) (cur :: rest) vis prev =
      if cur = tgt then some prev
      else bfs_loop succs tgt fuel (enqueue_all cur (succs cur) rest vis prev).1
        (enqueue_all cur (succs cur) rest vis prev).2.1
        (enqueue_all cur (succs cur) rest vis prev).2.2 := rfl

/-- The BFS loop run with enough fuel from an invariant state: a `none`
result refutes every walk from the source to the target, and a `some`
result carries a predecessor map whose chain leads back to the source
with a ghost distance that is a lower bound on every walk length. -/
theorem bfs_loop_spec (succs : Nat → List Nat) (n src tgt : Nat)
    (hS : ∀ u, u < n → ∀ t ∈ succs u, t < n) :
    ∀ (fuel : Nat) (q V : List Nat) (P : Nat → Option Nat) (d : Nat → Nat),
      BfsInv succs n src tgt q V P d →
      q.length + unvisited_count n V < fuel →
      (bfs_loop succs tgt fuel q V P = none → ∀ j, ¬ HasHops succs src tgt j) ∧
      (∀ P2, bfs_loop succs tgt fuel q V P = some P2 →
        ∃ (W : List Nat) (d2 : Nat → Nat),
          W.Nodup ∧ (∀ v ∈ W, v < n) ∧ tgt ∈ W ∧ src ∈ W ∧
          P2 src = none ∧ d2 src = 0 ∧
          (∀ v ∈ W, v ≠ src → ∃ u, P2 v = some u ∧ u ∈ W ∧ v ∈ succs u ∧ d2 v = d2 u + 1) ∧
          (∀ j, HasHops succs src tgt j → d2 tgt ≤ j)) := by
  intro fuel
  induction fuel with
  | zero =>
    intro q V P d hinv hm
    exact absurd hm (Nat.not_lt_zero _)
  | succ f ih =>
    intro q V P d hinv hm
    cases q with
    | nil =>
      refine ⟨fun _ j hj => ?_, fun P2 hP2 => absurd hP2 (by simp [bfs_loop])⟩
      by_cases htV : tgt ∈ V
      · exact absurd (hinv.tgtq htV) (by simp)
      · obtain ⟨a, ha, -⟩ := hinv.far tgt htV j hj
        exact absurd ha (by simp)
    | cons cur rest =>
      by_cases hct : cur = tgt
      · have hres : bfs_loop succs tgt (f + 1) (cur :: rest) V P = some P := by
          rw [bfs_loop_cons, if_pos hct]
        refine ⟨fun hnone => ?_, fun P2 hP2 => ?_⟩
        · rw [hres] at hnone
          exact absurd hnone (by simp)
        · rw [hres] at hP2
          injection hP2 with hP2
          have htV : tgt ∈ V := by
            rw [← hct]
            exact hinv.qsub cur (by simp)
          subst hP2
          exact ⟨V, d, hinv.vnd, hinv.vrange, htV, hinv.srcV, hinv.srcP, hinv.srcd,
            hinv.chain, fun j hj => hinv.lower tgt htV j hj⟩
      · have hcurn : cur < n := hinv.vrange cur (hinv.qsub cur (by simp))
        obtain ⟨d2, hinv2⟩ := bfsInv_step succs n src tgt hS cur rest V P d hinv hct
        have hmeas := enqueue_all_measure n cur (succs cur) rest V P
          (fun t ht => hS cur hcurn t ht)
        have hm2 : (enqueue_all cur (succs cur) rest V P).1.length +
            unvisited_count n (enqueue_all cur (succs cur) rest V P).2.1 < f := by
          simp only [List.length_cons] at hm
          omega
        have hres : bfs_loop succs tgt (f + 1) (cur :: rest) V P =
            bfs_loop succs tgt f (enqueue_all cur (succs cur) rest V P).1
              (enqueue_all cur (succs cur) rest V P).2.1
              (enqueue_all cur (succs cur) rest V P).2.2 := by
          rw [bfs_loop_cons, if_neg hct]
        rw [hres]
        exact ih _ _ _ d2 hinv2 hm2

/-- Along the predecessor chain the ghost distance counts pairwise
distinct entities, so every recorded distance is below the entity
count. -/
theorem chain_d_bound (succs : Nat → List Nat) (n src : Nat) (V : List Nat)
    (P : Nat → Option Nat) (d : Nat → Nat)
    (hnd : V.Nodup) (hrange : ∀ v ∈ V, v < n) (hsrcd : d src = 0)
    (hchain : ∀ v ∈ V, v ≠ src → ∃ u, P v = some u ∧ u ∈ V ∧ v ∈ succs u ∧ d v = d u + 1) :
    ∀ v ∈ V, d v < n := by
  have haux : ∀ k v, v ∈ V → d v = k →
      ∃ L : List Nat, L.Nodup ∧ (∀ x ∈ L, x ∈ V ∧ d x ≤ d v) ∧ L.length = d v + 1 := by
    intro k
    induction k using Nat.strong_induction_on with
    | _ k ihk =>
      intro v hv hdv
      by_cases hvs : v = src
      · have hd0 : d v = 0 := by rw [hvs]; exact hsrcd
        refine ⟨[v], List.nodup_singleton v, ?_, by simp [hd0]⟩
        intro x hx
        have hxv : x = v := List.mem_singleton.mp hx
        rw [hxv]
        exact ⟨hv, le_refl _⟩
      · obtain ⟨u, -, huV, -, hdvu⟩ := hchain v hv hvs
        obtain ⟨L, hLnd, hLmem, hLlen⟩ := ihk (d u) (by omega) u huV rfl
        refine ⟨v :: L, ?_, ?_, ?_⟩
        · refine List.nodup_cons.mpr ⟨?_, hLnd⟩
          intro hvL
          have := (hLmem v hvL).2
          omega
        · intro x hx
          rcases List.mem_cons.mp hx with rfl | hxL
          · exact ⟨hv, le_refl _⟩
          · exact ⟨(hLmem x hxL).1, le_trans (hLmem x hxL).2 (by omega)⟩
        · simp only [List.length_cons, hLlen]
          omega
  intro v hv
  obtain ⟨L, hLnd, hLmem, hLlen⟩ := haux (d v) v hv rfl
  have hsub : L ⊆ List.range n := fun x hx => List.mem_range.mpr (hrange x (hLmem x hx).1)
  have hle := (hLnd.subperm hsub).length_le
  rw [hLlen, List.length_range] at hle
  omega

theorem pathList_snoc (succs : Nat → List Nat) (a b c : Nat) (p : List Nat)
    (h : IsPathList succs a b p) (hedge : c ∈ succs b) :
    IsPathList succs a c (p ++ [c]) := by
  obtain ⟨hhead, hlast, hchain⟩ := h
  have hpne : p ≠ [] := by
    intro hnil
    rw [hnil] at hhead
    exact absurd hhead (by simp)
  refine ⟨?_, List.getLast?_concat p, ?_⟩
  · obtain ⟨x, rest, hx⟩ := List.exists_cons_of_ne_nil hpne
    rw [hx] at hhead ⊢
    simpa using hhead
  · rw [List.chain'_append]
    refine ⟨hchain, List.chain'_singleton c, ?_⟩
    intro x hx y hy
    rw [hlast] at hx
    injection hx with hx
    simp only [List.head?_cons, Option.mem_def, Option.some.injEq] at hy
    rw [← hx, ← hy]
    exact hedge

/-- The reconstruction walk follows the predecessor chain back to the
source and produces the reversed path, provided the fuel covers the
recorded distance of the start entity. -/
theorem walk_prev_spec (succs : Nat → List Nat) (src : Nat) (V : List Nat)
    (P : Nat → Option Nat) (d : Nat → Nat)
    (hsrcP : P src = none) (hsrcd : d src = 0)
    (hchain : ∀ v ∈ V, v ≠ src → ∃ u, P v = some u ∧ u ∈ V ∧ v ∈ succs u ∧ d v = d u + 1) :
    ∀ (k v : Nat), v ∈ V → d v = k → ∀ fuel, d v ≤ fuel →
      ∃ p, IsPathList succs src v p ∧ p.length = d v + 1 ∧
        walk_prev fuel P v = p.reverse := by
  intro k
  induction k using Nat.strong_induction_on with
  | _ k ihk =>
    intro v hv hdv fuel hfuel
    by_cases hvs : v = src
    · have hd0 : d v = 0 := by rw [hvs]; exact hsrcd
      have hwp : walk_prev fuel P v = [v] := by
        cases fuel with
        | zero => rfl
        | succ f =>
          have hPv : P v = none := by rw [hvs]; exact hsrcP
          simp [walk_prev, hPv]
      refine ⟨[v], ?_, by simp [hd0], by rw [hwp]; rfl⟩
      rw [hvs]
      exact ⟨rfl, rfl, List.chain'_singleton src⟩
    · obtain ⟨u, hPv, huV, hedge, hdvu⟩ := hchain v hv hvs
      cases fuel with
      | zero => exact absurd hfuel (by omega)
      | succ f =>
        obtain ⟨p, hpath, hplen, hwalk⟩ := ihk (d u) (by omega) u huV rfl f (by omega)
        refine ⟨p ++ [v], pathList_snoc succs src u v p hpath hedge, ?_, ?_⟩
        · simp only [List.length_append, List.length_cons, List.length_nil, hplen]
          omega
        · have hstep : walk_prev (f + 1) P v = v :: walk_prev f P u := by
            simp [walk_prev, hPv]
          rw [hstep, hwalk]
          simp

/-- The BFS start state — queue and visited set both holding exactly
the source, no predecessors, ghost distances all zero — satisfies the
loop invariant. -/
theorem bfsInv_init (succs : Nat → List Nat) (n src tgt : Nat) (hsrc : src < n) :
    BfsInv succs n src tgt [src] [src] (fun _ => none) (fun _ => 0) := by
  refine ⟨List.nodup_singleton src, fun x hx => hx, List.nodup_singleton src,
    ?_, by simp, rfl, rfl, ?_, ?_, ?_, by simp, ?_, ?_, ?_, fun h => h⟩
  · intro v hv
    rw [List.mem_singleton.mp hv]
    exact hsrc
  · intro v hv
    have hveq : v = src := List.mem_singleton.mp hv
    subst hveq
    exact HasHops.refl
  · intro v hv j hj
    exact Nat.zero_le j
  · intro v hv hvs
    exact absurd (List.mem_singleton.mp hv) hvs
  · intro a ha x hx
    simp
  · intro u hu huq
    exact absurd hu huq
  · intro w hw j hj
    cases hj with
    | refl => exact absurd (List.mem_singleton.mpr rfl) hw
    | snoc hwalk hedge =>
      rename_i u k
      exact ⟨src, rfl, by simp⟩

/-- C1: whenever both endpoints of a path query resolve to entities and
some directed walk from the source to the target exists, `find_path_bfs`
returns a source-to-target path of minimum possible node count; on the
Alice→Bob→Carol fixture with the extra direct edge Alice→Carol, the
query Alice→Carol returns the two-node path [Alice, Carol] whatever
transient marks a previous query left behind; and a query whose two
endpoints resolve to the same entity returns the one-node path holding
just that entity. -/
theorem find_path_bfs_shortest :
    (∀ (s : GState) (m : Marks) (fz : Bool) (c1 c2 : Int) (a b : Str) (srcId tgtId : Nat),
      (∀ u, u < s.arena.length → ∀ t ∈ succsOf s u, t < s.arena.length) →
      resolve_endpoint s fz c1 a = some srcId →
      resolve_endpoint s fz c2 b = some tgtId →
      srcId < s.arena.length →
      (∃ k, HasHops (succsOf s) srcId tgtId k) →
      ∃ p : List Nat,
        find_path_bfs s m fz c1 c2 a b = .Found (p.map (nameOf s)) ∧
        IsPathList (succsOf s) srcId tgtId p ∧
        ∀ q, IsPathList (succsOf s) srcId tgtId q → p.length ≤ q.length) ∧
    (∀ m : Marks, find_path_bfs exampleGraph m false 0 0 "Alice".toList "Carol".toList =
      .Found ["Alice".toList, "Carol".toList]) ∧
    (∀ (s : GState) (m : Marks) (fz : Bool) (c1 c2 : Int) (a b : Str) (i : Nat),
      (∀ u, u < s.arena.length → ∀ t ∈ succsOf s u, t < s.arena.length) →
      resolve_endpoint s fz c1 a = some i →
      resolve_endpoint s fz c2 b = some i →
      i < s.arena.length →
      find_path_bfs s m fz c1 c2 a b = .Found [nameOf s i]) := by
  have hgen : ∀ (s : GState) (m : Marks) (fz : Bool) (c1 c2 : Int) (a b : Str)
      (srcId tgtId : Nat),
      (∀ u, u < s.arena.length → ∀ t ∈ succsOf s u, t < s.arena.length) →
      resolve_endpoint s fz c1 a = some srcId →
      resolve_endpoint s fz c2 b = some tgtId →
      srcId < s.arena.length →
      (∃ k, HasHops (succsOf s) srcId tgtId k) →
      ∃ p : List Nat,
        find_path_bfs s m fz c1 c2 a b = .Found (p.map (nameOf s)) ∧
        IsPathList (succsOf s) srcId tgtId p ∧
        ∀ q, IsPathList (succsOf s) srcId tgtId q → p.length ≤ q.length := by
    intro s m fz c1 c2 a b srcId tgtId hS hra hrb hsn hex
    have hinv0 := bfsInv_init (succsOf s) s.arena.length srcId tgtId hsn
    have hu1 := unvisited_count_cons s.arena.length srcId [] hsn (by simp)
    have hu0 : unvisited_count s.arena.length [] = s.arena.length := by
      unfold unvisited_count
      rw [List.filter_eq_self.mpr (fun x _ => by simp)]
      exact List.length_range _
    have hm1 : ([srcId] : List Nat).length + unvisited_count s.arena.length [srcId] <
        s.arena.length + 1 := by
      simp only [List.length_cons, List.length_nil]
      omega
    have hspec := bfs_loop_spec (succsOf s) s.arena.length srcId tgtId hS
      (s.arena.length + 1) [srcId] [srcId] (fun _ => none) (fun _ => 0) hinv0 hm1
    cases hloop : bfs_loop (succsOf s) tgtId (s.arena.length + 1) [srcId] [srcId]
        (fun _ => none) with
    | none =>
      obtain ⟨k, hk⟩ := hex
      exact absurd hk (hspec.1 hloop k)
    | some P2 =>
      obtain ⟨W, d2, hWnd, hWr, htW, hsW, hP2s, hd2s, hch, hlow⟩ := hspec.2 P2 hloop
      have hdlt : d2 tgtId < s.arena.length :=
        chain_d_bound (succsOf s) s.arena.length srcId W P2 d2 hWnd hWr hd2s hch tgtId htW
      obtain ⟨p, hpath, hplen, hwalk⟩ := walk_prev_spec (succsOf s) srcId W P2 d2 hP2s hd2s
        hch (d2 tgtId) tgtId htW rfl s.arena.length (by omega)
      have hfp : find_path_bfs s m fz c1 c2 a b =
          .Found (((walk_prev s.arena.length P2 tgtId).reverse).map (nameOf s)) := by
        simp [find_path_bfs, hra, hrb, reset_bfs_marks, hloop]
      refine ⟨p, ?_, hpath, ?_⟩
      · rw [hfp, hwalk, List.reverse_reverse]
      · intro q hq
        have hj := pathList_toHops (succsOf s) q srcId tgtId hq
        have hle := hlow (q.length - 1) hj
        have hqpos : 0 < q.length := by
          obtain ⟨hh, -, -⟩ := hq
          cases q with
          | nil => exact absurd hh (by simp)
          | cons y ys => simp
        omega
  refine ⟨hgen, fun m => rfl, ?_⟩
  intro s m fz c1 c2 a b i hS hra hrb hin
  obtain ⟨p, hf, ⟨hh, hl, hc⟩, hmin⟩ :=
    hgen s m fz c1 c2 a b i i hS hra hrb hin ⟨0, HasHops.refl⟩
  have h1 : p.length ≤ 1 := hmin [i] ⟨rfl, rfl, List.chain'_singleton i⟩
  cases p with
  | nil => exact absurd hh (by simp)
  | cons x xs =>
    have hxs : xs = [] := by
      cases xs with
      | nil => rfl
      | cons z zs =>
        simp only [List.length_cons] at h1
        omega
    subst hxs
    injection hh with hh
    subst hh
    simpa using hf

/-- The shortest-path theorem applied at the example graph: the query
Alice→Carol (entity ids 0 and 2) returns a path of minimum length, and
the stale marks passed in are irrelevant. -/
theorem find_path_bfs_shortest_witness :
    ∃ p : List Nat,
      find_path_bfs exampleGraph ⟨[0, 1, 2], fun _ => some 0⟩ false 0 0
        "Alice".toList "Carol".toList = .Found (p.map (nameOf exampleGraph)) ∧
      IsPathList (succsOf exampleGraph) 0 2 p ∧
      ∀ q, IsPathList (succsOf exampleGraph) 0 2 q → p.length ≤ q.length :=
  find_path_bfs_shortest.1 exampleGraph ⟨[0, 1, 2], fun _ => some 0⟩ false 0 0
    "Alice".toList "Carol".toList 0 2 (by decide) (by decide) (by decide) (by decide)
    ⟨1, HasHops.snoc HasHops.refl (by decide)⟩

end KG
